import Mathlib

/-!
Verification of the BF-CBOM component matching engine against its
natural-language specification.

The development shallowly embeds the C++ sources:
  * `src/coordinator/treesimilarity/src/json_to_bracket.h`  (bracket encoder)
  * `src/coordinator/treesimilarity/src/n_way_match.cpp`    (coordinator pipeline)
  * `src/misc/treesimilartiy/src/n_way_match.cpp`           (pivot / all-pairs strategies,
                                                             union–find chain builder,
                                                             text-aware cost model)
  * `src/misc/treesimilartiy/src/n_way_match.h`             (Match / ComponentId records)

Strings are modelled as lists of bytes (`Nat`, value < 256 for real inputs);
`double` costs are modelled as exact rationals; the external JEDI verification
library and the or-tools assignment solver are parameters of the embedded
pipeline functions.
-/

namespace BFCBOM

/-- A byte, as seen through C++ `unsigned char`. -/
abbrev Byte := Nat

/-! ## Bracket encoder — `json_to_bracket.h` -/

/-- `std::isspace(static_cast<unsigned char>(c))` in the default C locale:
true exactly for HT, LF, VT, FF, CR and space. -/
def cppIsspace (c : Byte) : Bool :=
  c = 9 || c = 10 || c = 11 || c = 12 || c = 13 || c = 32

/-- `JsonToBracket::remove_all_whitespace`: keep the characters that are not
whitespace under the unsigned-byte predicate. -/
def remove_all_whitespace (s : List Byte) : List Byte :=
  s.filter (fun c => !(cppIsspace c))

/-- `JsonToBracket::escape_brackets`: `{` becomes `\{` and `}` becomes `\}`;
every other character is copied.  (123 = `{`, 125 = `}`, 92 = `\`.) -/
def escape_brackets : List Byte → List Byte
  | [] => []
  | c :: rest =>
      (if c = 123 then [92, 123] else if c = 125 then [92, 125] else [c])
        ++ escape_brackets rest

/-- `JsonToBracket::ascii_filter`: keep only bytes `< 128`. -/
def ascii_filter (s : List Byte) : List Byte :=
  s.filter (fun c => c < 128)

/-- A parsed cJSON value.  Object member keys and string payloads are raw byte
strings.  Numbers are modelled by the encoder's integer branch
(`num_val == (int)num_val`); the remaining branch formats a `double` through a
default `ostringstream`, which is outside the embedding (floating point) but
also only ever emits ASCII characters. -/
inductive Json where
  | obj (members : List (List Byte × Json))
  | arr (elems : List Json)
  | str (s : List Byte)
  | num (n : Int)
  | bool (b : Bool)
  | null
deriving Repr

/-- Byte-wise lexicographic strict order on byte strings, as `std::string`'s
`operator<` (which compares through `unsigned char`). -/
def bytesLt : List Byte → List Byte → Bool
  | [], [] => false
  | [], _ :: _ => true
  | _ :: _, [] => false
  | a :: as, b :: bs => if a < b then true else if b < a then false else bytesLt as bs

/-- The comparison `std::sort` applies to the collected
`std::pair<std::string, cJSON*>` items: lexicographic by key.  Ties (duplicate
keys) are ordered by pointer in C++, which is unspecified; the stable merge
sort below keeps them in insertion order. -/
def memberLe (a b : List Byte × Json) : Bool :=
  !(bytesLt b.1 a.1)

/-- The key sort performed in the `sort_keys` branch of
`json_to_bracket_recursive`. -/
def sortMembers (ms : List (List Byte × Json)) : List (List Byte × Json) :=
  List.mergeSort ms memberLe

/-- `JsonToBracket::json_to_bracket_recursive`.  Byte constants:
`{` 123, `}` 125, `"` 34, `:` 58, `[` 91, `]` 93, `\` 92. -/
def json_to_bracket_recursive (sort_keys : Bool) : Json → List Byte
  | .obj ms =>
      [123, 92, 123, 92, 125]
        ++ (((if sort_keys then sortMembers ms else ms)).attach.map
              (fun m =>
                [123, 34] ++ escape_brackets (ascii_filter m.1.1) ++ [34, 58]
                  ++ json_to_bracket_recursive sort_keys m.1.2 ++ [125])).flatten
        ++ [125]
  | .arr xs =>
      [123, 91, 93]
        ++ (xs.attach.map (fun x => json_to_bracket_recursive sort_keys x.1)).flatten
        ++ [125]
  | .str s =>
      [123, 34] ++ escape_brackets (remove_all_whitespace (ascii_filter s)) ++ [34, 125]
  | .num n =>
      [123] ++ (if n < 0 then 45 :: (Nat.digits 10 n.natAbs).reverse.map (· + 48)
                else if n = 0 then [48]
                else (Nat.digits 10 n.natAbs).reverse.map (· + 48)) ++ [125]
  | .bool b => if b then [123, 84, 114, 117, 101, 125] else [123, 70, 97, 108, 115, 101, 125]
  | .null => [123, 110, 117, 108, 108, 125]
termination_by j => sizeOf j
decreasing_by
  all_goals simp_wf
  · rename_i ms
    have hmem : m.1 ∈ ms := by
      rcases m with ⟨mv, hm⟩
      split at hm
      · exact ((List.mergeSort_perm ms memberLe).mem_iff).mp hm
      · exact hm
    have h1 : sizeOf m.1 < sizeOf ms := List.sizeOf_lt_of_mem hmem
    have h2 : sizeOf m.1.2 < sizeOf m.1 := by
      rcases m with ⟨⟨k, v⟩, _⟩
      simp only [Prod.mk.sizeOf_spec]
      omega
    omega
  · rename_i xs
    have h1 : sizeOf x.1 < sizeOf xs := List.sizeOf_lt_of_mem x.2
    omega

/-! ### Spec-side formulations for the encoder claims -/

/-- Modelled from the spec: *ascii* "drops every byte ≥ 128". -/
def spec_ascii (s : List Byte) : List Byte :=
  s.filter (fun b => !(decide (128 ≤ b)))

/-- Modelled from the spec: *remove_whitespace* "removes every character for
which an unsigned-byte whitespace predicate is true". -/
def spec_remove_whitespace (s : List Byte) : List Byte :=
  s.filter (fun b => cppIsspace b = false)

/-- Modelled from the spec: *escape* replaces every `{` with `\{` and every
`}` with `\}`. -/
def spec_escape (s : List Byte) : List Byte :=
  s.flatMap (fun b => if b = 123 then [92, 123] else if b = 125 then [92, 125] else [b])


/-! ## `prepare_json_documents` — both `n_way_match.cpp` files -/

/-- `tolower` on a byte, as cJSON's case-insensitive key comparison applies it. -/
def toLowerByte (c : Byte) : Byte :=
  if 65 ≤ c ∧ c ≤ 90 then c + 32 else c

/-- cJSON's case-insensitive key equality. -/
def keyEqCI (a b : List Byte) : Bool :=
  a.map toLowerByte == b.map toLowerByte

/-- `cJSON_GetObjectItem`: the first member of an object whose key matches
case-insensitively; `NULL` (here `none`) on any other value kind. -/
def getObjectItem : Json → List Byte → Option Json
  | .obj ms, key => (ms.find? (fun m => keyEqCI m.1 key)).map (·.2)
  | _, _ => none

/-- The byte string `components`. -/
def componentsKey : List Byte := [99, 111, 109, 112, 111, 110, 101, 110, 116, 115]

/-- The component list extracted from one parsed document: the members of the
top-level `components` array when `cJSON_IsArray` holds, and the (untouched)
empty vector otherwise. -/
def documentComponents (root : Json) : List Json :=
  match getObjectItem root componentsKey with
  | some (.arr comps) => comps
  | _ => []

/-- `prepare_json_documents`.  Each input document text is represented by its
`cJSON_Parse` outcome (`none` when parsing fails, in which case the loop
`continue`s).  Each component is printed with `cJSON_Print` and re-parsed by
`json_to_bracket` — an identity round trip on the parsed value — and then
bracket-encoded with the default `sort_keys = false`. -/
def prepare_json_documents : List (Option Json) → List (List (List Byte))
  | [] => []
  | none :: rest => prepare_json_documents rest
  | some root :: rest =>
      (documentComponents root).map (json_to_bracket_recursive false)
        :: prepare_json_documents rest


/-! ## Matching pipeline — `n_way_match.cpp`

The JEDI lookup (tree parsing, label-set conversion, two-stage inverted list
and exact verification, all from the external tree-similarity library) is a
parameter `oracle`: given the pivot component's bracket string (tree id 0) and
the target document's bracket strings (tree ids 1..t), it returns the verified
`LookupResultElement`s.  The or-tools `SimpleLinearSumAssignment` solver is a
parameter `solve`: given the arc count `n` and the cost matrix it returns
`none` on a non-`OPTIMAL` status and otherwise the `RightMate` column of every
row. -/

/-- `lookup::LookupResultElement`. -/
structure LookupResultElement where
  tree_id_1 : Int
  tree_id_2 : Int
  jedi_value : ℚ
deriving Repr

/-- `Match` from `n_way_match.h` (the coordinator variant additionally carries
two display-only document-name strings, which the embedding omits). -/
structure Match where
  query_doc : Nat
  target_doc : Nat
  query_comp : Nat
  target_comp : Nat
  cost : ℚ
deriving Repr, DecidableEq

/-- `MaxCost = 1e9`. -/
def MaxCost : ℚ := 10 ^ 9

/-- A cost matrix, total over indices; only entries below the dimension passed
to the solver are ever read. -/
def Mat := Nat → Nat → ℚ

/-- Pointwise update `Cost(i, j) = v`. -/
def matUpdate (M : Mat) (i j : Nat) (v : ℚ) : Mat :=
  fun i' j' => if i' = i ∧ j' = j then v else M i' j'

/-- The result loop of one `execute_lookup` call: for each result with
`tree_id_1 = 0` (sanity check) take `j = tree_id_2 - 1` and store the verified
JEDI value at `Cost(i, j)` when `0 ≤ j < target_size`. -/
def fillRow (target_size i : Nat) (results : List LookupResultElement) (M : Mat) : Mat :=
  results.foldl
    (fun M res =>
      if res.tree_id_1 ≠ 0 then M
      else
        let j : Int := res.tree_id_2 - 1
        if 0 ≤ j ∧ j < (target_size : Int) then matUpdate M i j.toNat res.jedi_value else M)
    M

/-- The lookup oracle abstracting `execute_lookup` over the freshly built
per-row tree collection. -/
def Oracle (β : Type) := β → List β → List LookupResultElement

/-- The per-document-pair cost matrix: `Constant(MaxCost)` and then, for each
pivot component `i`, the verified distances of that row. -/
def buildCostMatrix {β : Type} (oracle : Oracle β) (pivot_document target_document : List β) :
    Mat :=
  pivot_document.enum.foldl
    (fun M p => fillRow target_document.length p.1 (oracle p.2 target_document) M)
    (fun _ _ => MaxCost)

/-- The abstract assignment solver (`SimpleLinearSumAssignment`): from the arc
range `n` and the cost matrix to `none` (non-`OPTIMAL`: no matches emitted) or
the `RightMate` assignment. -/
def Solver := Nat → Mat → Option (Nat → Int)

/-- The pivot selection loop shared by `n_way_match_pivot` and the coordinator
`n_way_match`: a running maximum with strict `>` starting from index 0 and
size 0, so the first document of maximal component count wins.  Returns
`(pivot_index, pivot_size)`. -/
def selectPivot {β : Type} (documents : List (List β)) : Nat × Nat :=
  (List.range documents.length).foldl
    (fun acc i =>
      if (documents.getD i []).length > acc.2 then (i, (documents.getD i []).length) else acc)
    (0, 0)

/-- Match-emission loop of `n_way_match_pivot`: keep assigned columns inside
the target range, `continue` past costs above `cost_thresh`. -/
def emitPivot (M : Mat) (mate : Nat → Int) (pivot_index k pivot_size target_size : Nat)
    (cost_thresh : ℚ) : List Match :=
  (List.range pivot_size).foldr
    (fun i acc =>
      let j := mate i
      if 0 ≤ j ∧ j < (target_size : Int) then
        if M i j.toNat > cost_thresh then acc
        else ⟨pivot_index, k, i, j.toNat, M i j.toNat⟩ :: acc
      else acc)
    []

/-- Match-emission loop of `n_way_match_all`: as `emitPivot` but additionally
requiring `Cost(i, j) < MaxCost`. -/
def emitAll (M : Mat) (mate : Nat → Int) (p k pivot_size target_size : Nat)
    (cost_thresh : ℚ) : List Match :=
  (List.range pivot_size).foldr
    (fun i acc =>
      let j := mate i
      if 0 ≤ j ∧ j < (target_size : Int) then
        if M i j.toNat < MaxCost then
          if M i j.toNat > cost_thresh then acc
          else ⟨p, k, i, j.toNat, M i j.toNat⟩ :: acc
        else acc
      else acc)
    []

/-- Match-emission loop of the coordinator `n_way_match`: every assigned column
inside the target range is emitted — no cost filter of any kind. -/
def emitCoordinator (M : Mat) (mate : Nat → Int) (pivot_index k pivot_size target_size : Nat) :
    List Match :=
  (List.range pivot_size).foldr
    (fun i acc =>
      let j := mate i
      if 0 ≤ j ∧ j < (target_size : Int) then ⟨pivot_index, k, i, j.toNat, M i j.toNat⟩ :: acc
      else acc)
    []

/-- One `(pivot, target k)` iteration of `n_way_match_pivot`: build the
`pivot_size × pivot_size` cost matrix, feed all its `pivot_size × pivot_size`
arcs to the solver, and emit matches only on `OPTIMAL` status. -/
def pairMatchesPivot {β : Type} (oracle : Oracle β) (solve : Solver)
    (pivot_document target_document : List β) (pivot_index k : Nat) (cost_thresh : ℚ) :
    List Match :=
  let M := buildCostMatrix oracle pivot_document target_document
  match solve pivot_document.length M with
  | none => []
  | some mate =>
      emitPivot M mate pivot_index k pivot_document.length target_document.length cost_thresh

/-- One `(p, k)` iteration of `n_way_match_all`: the matrix and the solver's
arc range use `n = max(target_size, pivot_size)`. -/
def pairMatchesAll {β : Type} (oracle : Oracle β) (solve : Solver)
    (pivot_document target_document : List β) (p k : Nat) (cost_thresh : ℚ) : List Match :=
  let n := max target_document.length pivot_document.length
  let M := buildCostMatrix oracle pivot_document target_document
  match solve n M with
  | none => []
  | some mate =>
      emitAll M mate p k pivot_document.length target_document.length cost_thresh

/-- One `(pivot, target k)` iteration of the coordinator `n_way_match`. -/
def pairMatchesCoordinator {β : Type} (oracle : Oracle β) (solve : Solver)
    (pivot_document target_document : List β) (pivot_index k : Nat) : List Match :=
  let M := buildCostMatrix oracle pivot_document target_document
  match solve pivot_document.length M with
  | none => []
  | some mate =>
      emitCoordinator M mate pivot_index k pivot_document.length target_document.length

/-- The default `cost_thresh` of both strategy entry points. -/
def default_cost_thresh : ℚ := 25

/-- The `Match` list accumulated by `n_way_match_pivot` before chain building. -/
def n_way_match_pivot_matches {β : Type} (oracle : Oracle β) (solve : Solver)
    (documents : List (List β)) (cost_thresh : ℚ) : List Match :=
  let pivot_index := (selectPivot documents).1
  let pivot_document := documents.getD pivot_index []
  (List.range documents.length).foldr
    (fun k acc =>
      if k = pivot_index then acc
      else
        pairMatchesPivot oracle solve pivot_document (documents.getD k []) pivot_index k
            cost_thresh ++ acc)
    []

/-- The `Match` list accumulated by `n_way_match_all`. -/
def n_way_match_all_matches {β : Type} (oracle : Oracle β) (solve : Solver)
    (documents : List (List β)) (cost_thresh : ℚ) : List Match :=
  (List.range documents.length).foldr
    (fun p acc =>
      (List.range documents.length).foldr
          (fun k acc2 =>
            if k = p then acc2
            else
              pairMatchesAll oracle solve (documents.getD p []) (documents.getD k []) p k
                  cost_thresh ++ acc2)
          [] ++ acc)
    []

/-- The `Match` list returned by the coordinator `n_way_match` (which applies
`prepare_json_documents` itself and has no threshold parameter). -/
def coordinator_n_way_match (oracle : Oracle (List Byte)) (solve : Solver)
    (json_documents : List (Option Json)) : List Match :=
  let documents := prepare_json_documents json_documents
  let pivot_index := (selectPivot documents).1
  let pivot_document := documents.getD pivot_index []
  (List.range documents.length).foldr
    (fun k acc =>
      if k = pivot_index then acc
      else
        pairMatchesCoordinator oracle solve pivot_document (documents.getD k []) pivot_index k
          ++ acc)
    []

/-! ## Union–find chain builder — `n_way_match.h` / `n_way_match.cpp` -/

/-- `ComponentId`: `cost` is carried but ignored by `operator==` and the hash. -/
structure ComponentId where
  doc_id : Nat
  comp_id : Nat
  cost : ℚ
deriving Repr, DecidableEq

/-- `ComponentId::operator==`: equality on `(doc_id, comp_id)` only. -/
def cidEq (x y : ComponentId) : Bool :=
  x.doc_id == y.doc_id && x.comp_id == y.comp_id

/-- The identity a `ComponentId` is keyed by. -/
def cidKey (x : ComponentId) : Nat × Nat := (x.doc_id, x.comp_id)

/-- Lookup in the `unordered_map<ComponentId, ComponentId, ComponentIdHash>`
parent table, modelled as an association list in insertion order with keys
distinct modulo `cidEq`. -/
def pLookup (m : List (ComponentId × ComponentId)) (x : ComponentId) : Option ComponentId :=
  (m.find? (fun e => cidEq e.1 x)).map (·.2)

/-- `parent[x] = v`: update the value at the stored key equal to `x` (the
stored key object, with its original `cost`, is kept), or append a new entry. -/
def pInsert :
    List (ComponentId × ComponentId) → ComponentId → ComponentId →
      List (ComponentId × ComponentId)
  | [], x, v => [(x, v)]
  | e :: rest, x, v => if cidEq e.1 x then (e.1, v) :: rest else e :: pInsert rest x v

/-- `UnionFind::find` with path compression, fuelled.  The fuel `m.length + 1`
passed by `ufFind` always suffices, because parent chains visit distinct keys
of the table. -/
def findAux :
    Nat → List (ComponentId × ComponentId) → ComponentId →
      ComponentId × List (ComponentId × ComponentId)
  | 0, m, x => (x, m)
  | fuel + 1, m, x =>
      match pLookup m x with
      | none => (x, pInsert m x x)
      | some p =>
          if cidEq p x then (x, m)
          else
            let r := findAux fuel m p
            (r.1, pInsert r.2 x r.1)

/-- `UnionFind::find`. -/
def ufFind (m : List (ComponentId × ComponentId)) (x : ComponentId) :
    ComponentId × List (ComponentId × ComponentId) :=
  findAux (m.length + 1) m x

/-- `UnionFind::unite`. -/
def ufUnite (m : List (ComponentId × ComponentId)) (x y : ComponentId) :
    List (ComponentId × ComponentId) :=
  let fx := ufFind m x
  let fy := ufFind fx.2 y
  if cidEq fx.1 fy.1 then fy.2 else pInsert fy.2 fx.1 fy.1

/-- `groups[root].push_back(comp)` on the `unordered_map<ComponentId,
vector<ComponentId>>` of `getConnectedComponents`. -/
def gInsert :
    List (ComponentId × List ComponentId) → ComponentId → ComponentId →
      List (ComponentId × List ComponentId)
  | [], r, c => [(r, [c])]
  | e :: rest, r, c => if cidEq e.1 r then (e.1, e.2 ++ [c]) :: rest else e :: gInsert rest r c

/-- The loop of `UnionFind::getConnectedComponents`: visit every stored key,
find its root (possibly compressing paths as it goes), and bucket it. -/
def ufGroupsAux :
    List ComponentId → List (ComponentId × ComponentId) →
      List (ComponentId × List ComponentId) → List (ComponentId × List ComponentId)
  | [], _, acc => acc
  | c :: rest, m, acc =>
      let f := ufFind m c
      ufGroupsAux rest f.2 (gInsert acc f.1 c)

/-- `UnionFind::getConnectedComponents`. -/
def getConnectedComponents (m : List (ComponentId × ComponentId)) : List (List ComponentId) :=
  (ufGroupsAux (m.map (·.1)) m []).map (·.2)

/-- The union–find table built by `buildComponentChains`: unite the two
endpoints of every match (each `ComponentId` carrying that match's cost). -/
def ufFromMatches (match_list : List Match) : List (ComponentId × ComponentId) :=
  match_list.foldl
    (fun m mt =>
      ufUnite m ⟨mt.query_doc, mt.query_comp, mt.cost⟩
        ⟨mt.target_doc, mt.target_comp, mt.cost⟩)
    []

/-- `buildComponentChains`: unite the endpoints of every match and return the
partition. -/
def buildComponentChains (match_list : List Match) : List (List ComponentId) :=
  getConnectedComponents (ufFromMatches match_list)

/-! ### Semantic layer for the union–find proofs -/

/-- One parent link of the table, seen at key level. -/
def edge (m : List (ComponentId × ComponentId)) (a b : Nat × Nat) : Prop :=
  ∃ e ∈ m, cidKey e.1 = a ∧ cidKey e.2 = b

/-- A terminating parent chain: following parent pointers from `x` reaches the
root `r` in `n` steps. -/
inductive PChain (m : List (ComponentId × ComponentId)) :
    ComponentId → Nat → ComponentId → Prop
  | root (x : ComponentId) (hroot : ∀ p, pLookup m x = some p → cidEq p x = true) :
      PChain m x 0 x
  | step (x p : ComponentId) (n : Nat) (r : ComponentId) (hp : pLookup m x = some p)
      (hnp : cidEq p x = false) (htail : PChain m p n r) : PChain m x (n + 1) r

/-- The union–find table invariant: stored keys are pairwise distinct, every
stored parent value is itself a stored key, and every stored key's parent
chain terminates. -/
structure UFInv (m : List (ComponentId × ComponentId)) : Prop where
  ndk : m.Pairwise (fun e1 e2 => cidKey e1.1 ≠ cidKey e2.1)
  vk : ∀ e ∈ m, ∃ e' ∈ m, cidKey e'.1 = cidKey e.2
  term : ∀ e ∈ m, ∃ n r, PChain m e.1 n r

/-- The match relation `{(query, target) | some Match links them}` at key
level. -/
def matchEdge (match_list : List Match) (a b : Nat × Nat) : Prop :=
  ∃ mt ∈ match_list,
    a = (mt.query_doc, mt.query_comp) ∧ b = (mt.target_doc, mt.target_comp)

/-- A `(doc_id, comp_id)` pair touched by at least one match. -/
def touched (match_list : List Match) (p : Nat × Nat) : Prop :=
  ∃ mt ∈ match_list,
    p = (mt.query_doc, mt.query_comp) ∨ p = (mt.target_doc, mt.target_comp)

/-- A relation extended by one ordered pair. -/
def addPair (R : (Nat × Nat) → (Nat × Nat) → Prop) (u v : Nat × Nat) :
    (Nat × Nat) → (Nat × Nat) → Prop :=
  fun a b => R a b ∨ (a = u ∧ b = v)

/-- Union of two relations. -/
def edgeUnion (R S : (Nat × Nat) → (Nat × Nat) → Prop) :
    (Nat × Nat) → (Nat × Nat) → Prop :=
  fun a b => R a b ∨ S a b

/-- `k` is the key of the root that key `a` reaches in `m`. -/
def RootKey (m : List (ComponentId × ComponentId)) (a k : Nat × Nat) : Prop :=
  ∃ (z : ComponentId) (n : Nat) (r : ComponentId),
    cidKey z = a ∧ PChain m z n r ∧ cidKey r = k

/-- `n_way_match_pivot`: matches against the largest document, fused into
groups. -/
def n_way_match_pivot {β : Type} (oracle : Oracle β) (solve : Solver)
    (documents : List (List β)) (cost_thresh : ℚ) : List (List ComponentId) :=
  buildComponentChains (n_way_match_pivot_matches oracle solve documents cost_thresh)

/-- `n_way_match_all`: all ordered pairs, fused into groups. -/
def n_way_match_all {β : Type} (oracle : Oracle β) (solve : Solver)
    (documents : List (List β)) (cost_thresh : ℚ) : List (List ComponentId) :=
  buildComponentChains (n_way_match_all_matches oracle solve documents cost_thresh)

/-! ## Text-aware cost model — `CustomCostModelJSON` -/

/-- `label::JSONLabel` as the cost model reads it: a kind tag (`get_type`) and
the printable content (`get_label`). -/
structure JSONLabel where
  type : Nat
  label : List Byte
deriving Repr, DecidableEq

/-- `label::LabelDictionary` at query time: `get` resolves an id. -/
def ldGet (ld : List JSONLabel) (id : Nat) : JSONLabel :=
  ld.getD id ⟨0, []⟩

/-- The DP table of `CustomCostModelJSON::normalized_levenshtein`:
`levTable s1 s2 i j` is `dp[i][j]`, the edit distance between the first `i`
characters of `s1` and the first `j` characters of `s2`. -/
def levTable (s1 s2 : List Byte) : Nat → Nat → Nat
  | i, 0 => i
  | 0, j + 1 => j + 1
  | i + 1, j + 1 =>
      min (min (levTable s1 s2 i (j + 1) + 1) (levTable s1 s2 (i + 1) j + 1))
        (levTable s1 s2 i j + if s1.getD i 0 = s2.getD j 0 then 0 else 1)

/-- `CustomCostModelJSON::normalized_levenshtein`. -/
def normalized_levenshtein (s1 s2 : List Byte) : ℚ :=
  if s1.length = 0 then (if s2.length > 0 then 1 else 0)
  else if s2.length = 0 then 1
  else (levTable s1 s2 s1.length s2.length : ℚ) / ((max s1.length s2.length : Nat) : ℚ)

/-- `CustomCostModelJSON::ren`. -/
def ren (ld : List JSONLabel) (id1 id2 : Nat) : ℚ :=
  if (ldGet ld id1).type ≠ (ldGet ld id2).type then MaxCost
  else if (ldGet ld id1).label = (ldGet ld id2).label then 0
  else 1 / 2 + normalized_levenshtein (ldGet ld id1).label (ldGet ld id2).label

/-- `CustomCostModelJSON::del`. -/
def del (_ : Nat) : ℚ := 1

/-- `CustomCostModelJSON::ins`. -/
def ins (_ : Nat) : ℚ := 1

/-- Modelled from the spec: the Levenshtein distance between two strings —
unit-cost insertions, deletions and substitutions — here in the textbook
orientation that peels the trailing character (the recursion runs on the
reversed strings). -/
def levRev : List Byte → List Byte → Nat
  | [], ys => ys.length
  | x :: xs, [] => (x :: xs).length
  | x :: xs, y :: ys =>
      min (min (levRev xs (y :: ys) + 1) (levRev (x :: xs) ys + 1))
        (levRev xs ys + if x = y then 0 else 1)

/-- Modelled from the spec: "the Levenshtein distance of the two label texts". -/
def spec_levenshtein (s1 s2 : List Byte) : Nat :=
  levRev s1.reverse s2.reverse

/-- The running-maximum invariant of the pivot-selection loop after the first
`k` iterations. -/
def selectPivotInv {β : Type} (documents : List (List β)) (k : Nat) (acc : Nat × Nat) : Prop :=
  acc.1 < k ∧ acc.2 = (documents.getD acc.1 []).length
    ∧ (∀ i, i < k → (documents.getD i []).length ≤ acc.2)
    ∧ (∀ i, i < acc.1 → (documents.getD i []).length < acc.2)

/-- A document `{"components": [null]}` for the coordinator counterexample. -/
def cexDoc : Json := Json.obj [(componentsKey, Json.arr [Json.null])]

/-- A lookup oracle reporting a verified JEDI distance of `30` between the
pivot component (tree 0) and the single target component (tree 1) — realisable
by two components 30 edit operations apart, since `distance_threshold` is
`100000`. -/
def cexOracle : Oracle (List Byte) := fun _ _ => [⟨0, 1, 30⟩]

/-- The assignment solver's answer on the 1 × 1 instance: `OPTIMAL`, row 0
matched to column 0 (the only possible assignment). -/
def cexSolver : Solver := fun _ _ => some (fun _ => 0)

theorem spec_ascii_eq (s : List Byte) : spec_ascii s = ascii_filter s := by
  unfold spec_ascii ascii_filter
  congr 1
  funext b
  rcases Nat.lt_or_ge b 128 with h | h
  · simp [h, Nat.not_le.mpr h]
  · simp [Nat.not_lt.mpr h, h]

theorem spec_remove_whitespace_eq (s : List Byte) :
    spec_remove_whitespace s = remove_all_whitespace s := by
  unfold spec_remove_whitespace remove_all_whitespace
  congr 1
  funext b
  cases h : cppIsspace b <;> simp [h]

theorem spec_escape_eq (s : List Byte) : spec_escape s = escape_brackets s := by
  induction s with
  | nil => rfl
  | cons c rest ih => simp only [spec_escape, List.flatMap_cons, escape_brackets] at ih ⊢; rw [ih]

/-- C8: on a JSON string value the encoder emits `{"` then the text reduced to
ASCII, then stripped of whitespace, then bracket-escaped — in that order —
then `"}`. -/
theorem string_leaf_encoding (v : List Byte) (sort_keys : Bool) :
    json_to_bracket_recursive sort_keys (.str v)
      = [123, 34] ++ spec_escape (spec_remove_whitespace (spec_ascii v)) ++ [34, 125] := by
  rw [spec_ascii_eq, spec_remove_whitespace_eq, spec_escape_eq]
  simp [json_to_bracket_recursive]

/-! ### ASCII reduction invariant -/

theorem mem_ascii_filter_lt {b : Byte} {s : List Byte} (h : b ∈ ascii_filter s) : b < 128 := by
  unfold ascii_filter at h
  simpa using (List.of_mem_filter h)

theorem mem_remove_all_whitespace {b : Byte} {s : List Byte}
    (h : b ∈ remove_all_whitespace s) : b ∈ s :=
  List.mem_of_mem_filter h

theorem mem_escape_brackets {b : Byte} {s : List Byte} (h : b ∈ escape_brackets s) :
    b = 92 ∨ b ∈ s := by
  induction s with
  | nil => simp [escape_brackets] at h
  | cons c rest ih =>
      simp only [escape_brackets, List.mem_append] at h
      rcases h with h | h
      · have hbc : b = 92 ∨ b = c := by
          split_ifs at h with h1 h2
          · subst h1; simp at h; tauto
          · subst h2; simp at h; tauto
          · simp at h; tauto
        rcases hbc with rfl | rfl
        · exact Or.inl rfl
        · exact Or.inr (List.mem_cons_self _ _)
      · rcases ih h with h' | h'
        · exact Or.inl h'
        · exact Or.inr (List.mem_cons_of_mem _ h')

theorem escape_brackets_ascii {b : Byte} {s : List Byte} (hs : ∀ x ∈ s, x < 128)
    (h : b ∈ escape_brackets s) : b < 128 := by
  rcases mem_escape_brackets h with h' | h'
  · subst h'
    norm_num
  · exact hs b h'

theorem digits_bytes_lt {b m : Byte} (h : b ∈ (Nat.digits 10 m).reverse.map (· + 48)) :
    b < 128 := by
  simp only [List.mem_map, List.mem_reverse] at h
  obtain ⟨d, hd, rfl⟩ := h
  have h10 : d < 10 := Nat.digits_lt_base (by norm_num) hd
  show d + 48 < 128
  omega

/-- C9: every byte of every bracket string produced by the encoder is `< 128`. -/
theorem bracket_string_ascii (sort_keys : Bool) (v : Json) :
    ∀ b ∈ json_to_bracket_recursive sort_keys v, b < 128 := by
  induction v using json_to_bracket_recursive.induct sort_keys with
  | case1 ms ih =>
      intro b hb
      simp only [json_to_bracket_recursive, List.mem_append] at hb
      rcases hb with (hb | hb) | hb
      · fin_cases hb <;> norm_num
      · rw [List.mem_flatten] at hb
        obtain ⟨l, hl, hbl⟩ := hb
        rw [List.mem_map] at hl
        obtain ⟨m, _, rfl⟩ := hl
        simp only [List.mem_append] at hbl
        rcases hbl with (((hb | hb) | hb) | hb) | hb
        · fin_cases hb <;> norm_num
        · exact escape_brackets_ascii (fun x hx => mem_ascii_filter_lt hx) hb
        · fin_cases hb <;> norm_num
        · exact ih m b hb
        · fin_cases hb <;> norm_num
      · fin_cases hb <;> norm_num
  | case2 xs ih =>
      intro b hb
      simp only [json_to_bracket_recursive, List.mem_append] at hb
      rcases hb with (hb | hb) | hb
      · fin_cases hb <;> norm_num
      · rw [List.mem_flatten] at hb
        obtain ⟨l, hl, hbl⟩ := hb
        rw [List.mem_map] at hl
        obtain ⟨x, _, rfl⟩ := hl
        exact ih x b hbl
      · fin_cases hb <;> norm_num
  | case3 s =>
      intro b hb
      simp only [json_to_bracket_recursive, List.mem_append] at hb
      rcases hb with (hb | hb) | hb
      · fin_cases hb <;> norm_num
      · exact escape_brackets_ascii
          (fun x hx => mem_ascii_filter_lt (mem_remove_all_whitespace hx)) hb
      · fin_cases hb <;> norm_num
  | case4 n =>
      intro b hb
      simp only [json_to_bracket_recursive, List.mem_append] at hb
      rcases hb with (hb | hb) | hb
      · fin_cases hb <;> norm_num
      · split_ifs at hb
        · rcases List.mem_cons.mp hb with rfl | hb
          · norm_num
          · exact digits_bytes_lt hb
        · fin_cases hb <;> norm_num
        · exact digits_bytes_lt hb
      · fin_cases hb <;> norm_num
  | case5 =>
      intro b hb
      simp only [json_to_bracket_recursive, if_pos rfl] at hb
      fin_cases hb <;> norm_num
  | case6 b' hb' =>
      intro b hb
      have hbf : b' = false := by
        cases b' with
        | false => rfl
        | true => exact absurd rfl hb'
      subst hbf
      simp only [json_to_bracket_recursive, Bool.false_eq_true, if_false] at hb
      fin_cases hb <;> norm_num
  | case7 =>
      intro b hb
      simp only [json_to_bracket_recursive] at hb
      fin_cases hb <;> norm_num

/-- Closed instance for the ASCII invariant: the backslash byte introduced by
escaping a `{` that survived whitespace removal is below 128. -/
theorem bracket_string_ascii_witness : (92 : Byte) < 128 :=
  bracket_string_ascii false (Json.str [200, 32, 123]) 92
    (by simp [json_to_bracket_recursive, ascii_filter, remove_all_whitespace, cppIsspace,
          escape_brackets])

/-- C5 (counterexample): a document that parses but has no top-level
`components` array is not dropped from the output — it contributes an (empty)
entry, where the claim requires no entry at all. -/
theorem prepare_no_components_entry_cex :
    prepare_json_documents [some (Json.obj [([102, 111, 111], Json.num 1)])] = [[]]
      ∧ ([[]] : List (List (List Byte))) ≠ [] := by
  constructor
  · rfl
  · simp

/-- C5 (amended): only parse failures are skipped; every successfully parsed
document contributes exactly one entry, in input order, holding the bracket
strings of the members of its `components` array — the empty list when there
is no such array. -/
theorem prepare_json_documents_entries (docs : List (Option Json)) :
    prepare_json_documents docs
      = (docs.filterMap id).map
          (fun root => (documentComponents root).map (json_to_bracket_recursive false)) := by
  induction docs with
  | nil => rfl
  | cons d rest ih => cases d <;> simp [prepare_json_documents, ih]

theorem levRev_nil_right (u : List Byte) : levRev u [] = u.length := by
  cases u with
  | nil => simp [levRev]
  | cons a as => simp [levRev]

theorem levRev_le_max : ∀ xs ys : List Byte, levRev xs ys ≤ max xs.length ys.length := by
  intro xs ys
  induction xs, ys using levRev.induct with
  | case1 ys => simp [levRev]
  | case2 x xs => simp [levRev]
  | case3 x xs y ys ih1 ih2 ih3 =>
      have hstep : levRev (x :: xs) (y :: ys)
          ≤ levRev xs ys + if x = y then 0 else 1 := by
        simp only [levRev]
        exact Nat.min_le_right _ _
      have hcost : (if x = y then 0 else 1) ≤ 1 := by split <;> omega
      simp only [List.length_cons]
      omega

theorem levRev_comm : ∀ xs ys : List Byte, levRev xs ys = levRev ys xs := by
  intro xs ys
  induction xs, ys using levRev.induct with
  | case1 ys => cases ys <;> simp [levRev]
  | case2 x xs => simp [levRev]
  | case3 x xs y ys ih1 ih2 ih3 =>
      have hcost : (if x = y then (0 : Nat) else 1) = (if y = x then 0 else 1) := by
        by_cases h : x = y
        · simp [h]
        · have h' : ¬y = x := fun hh => h hh.symm
          simp [h, h']
      simp only [levRev]
      rw [ih1, ih2, ih3, hcost,
        min_comm (levRev (y :: ys) xs + 1) (levRev ys (x :: xs) + 1)]

theorem reverse_take_succ {l : List Byte} {i : Nat} (h : i < l.length) :
    (l.take (i + 1)).reverse = l.getD i 0 :: (l.take i).reverse := by
  rw [List.take_succ, List.reverse_append, List.getElem?_eq_getElem h]
  simp [List.getD, List.getElem?_eq_getElem h]

theorem levTable_eq_levRev (s1 s2 : List Byte) :
    ∀ i j, i ≤ s1.length → j ≤ s2.length →
      levTable s1 s2 i j = levRev (s1.take i).reverse (s2.take j).reverse := by
  intro i j
  induction i, j using levTable.induct s1 s2 with
  | case1 i =>
      intro hi _
      have h0 : (s2.take 0).reverse = ([] : List Byte) := by simp
      rw [h0, levRev_nil_right]
      simp [levTable, Nat.min_eq_left hi]
  | case2 j =>
      intro _ hj
      have h0 : (s1.take 0).reverse = ([] : List Byte) := by simp
      rw [h0]
      have h1 : levRev [] (s2.take (j + 1)).reverse = (s2.take (j + 1)).reverse.length := by
        simp [levRev]
      rw [h1]
      simp [levTable, Nat.min_eq_left hj]
  | case3 i j ih1 ih2 ih3 =>
      intro hi hj
      have hi' : i < s1.length := by omega
      have hj' : j < s2.length := by omega
      simp only [levTable]
      rw [ih1 (by omega) hj, ih2 hi (by omega), ih3 (by omega) (by omega),
        reverse_take_succ hi', reverse_take_succ hj']
      simp only [levRev]

theorem spec_levenshtein_eq_levTable (s1 s2 : List Byte) :
    spec_levenshtein s1 s2 = levTable s1 s2 s1.length s2.length := by
  unfold spec_levenshtein
  rw [levTable_eq_levRev s1 s2 _ _ le_rfl le_rfl, List.take_length, List.take_length]

theorem spec_levenshtein_le_max (s1 s2 : List Byte) :
    spec_levenshtein s1 s2 ≤ max s1.length s2.length := by
  unfold spec_levenshtein
  have := levRev_le_max s1.reverse s2.reverse
  simpa using this

theorem spec_levenshtein_comm (s1 s2 : List Byte) :
    spec_levenshtein s1 s2 = spec_levenshtein s2 s1 := by
  unfold spec_levenshtein
  exact levRev_comm _ _

theorem normalized_levenshtein_eq_ratio (s1 s2 : List Byte) (hne : s1 ≠ s2) :
    normalized_levenshtein s1 s2
      = (spec_levenshtein s1 s2 : ℚ) / ((max s1.length s2.length : Nat) : ℚ) := by
  unfold normalized_levenshtein
  split_ifs with h1 h2 h3
  · have hs1 : s1 = [] := List.length_eq_zero.mp h1
    subst hs1
    have h2' : s2 ≠ [] := by
      intro h
      exact hne h.symm
    have hlev : spec_levenshtein [] s2 = s2.length := by
      unfold spec_levenshtein
      cases hs2 : s2.reverse with
      | nil =>
          exfalso
          apply h2'
          simpa using hs2
      | cons a as =>
          simp only [List.reverse_nil]
          have hlr : levRev [] (a :: as) = (a :: as).length := by simp [levRev]
          rw [hlr, ← hs2]
          simp
    rw [hlev, h1]
    rw [Nat.max_eq_right (Nat.zero_le _)]
    rw [div_self]
    have : s2.length ≠ 0 := fun h => h2' (List.length_eq_zero.mp h)
    exact_mod_cast this
  · exfalso
    have hs1 : s1 = [] := List.length_eq_zero.mp h1
    subst hs1
    have : s2 = [] := by
      cases s2 with
      | nil => rfl
      | cons a as => simp at h2
    exact hne this.symm
  · have hs2 : s2 = [] := List.length_eq_zero.mp h3
    subst hs2
    have hlev : spec_levenshtein s1 [] = s1.length := by
      unfold spec_levenshtein
      simpa using levRev_nil_right s1.reverse
    rw [hlev, h3]
    rw [Nat.max_eq_left (Nat.zero_le _)]
    rw [div_self]
    exact_mod_cast h1
  · rw [spec_levenshtein_eq_levTable]

theorem normalized_levenshtein_nonneg (s1 s2 : List Byte) :
    0 ≤ normalized_levenshtein s1 s2 := by
  unfold normalized_levenshtein
  split_ifs
  · norm_num
  · norm_num
  · norm_num
  · positivity

theorem normalized_levenshtein_le_one (s1 s2 : List Byte) :
    normalized_levenshtein s1 s2 ≤ 1 := by
  unfold normalized_levenshtein
  split_ifs with h1 h2 h3
  · norm_num
  · norm_num
  · norm_num
  · have hmax : 0 < max s1.length s2.length := by
      have := Nat.pos_of_ne_zero h1
      omega
    rw [div_le_one (by exact_mod_cast hmax)]
    have hle := spec_levenshtein_le_max s1 s2
    rw [spec_levenshtein_eq_levTable] at hle
    exact_mod_cast hle

theorem normalized_levenshtein_comm (s1 s2 : List Byte) :
    normalized_levenshtein s1 s2 = normalized_levenshtein s2 s1 := by
  by_cases he : s1 = s2
  · subst he; rfl
  · rw [normalized_levenshtein_eq_ratio s1 s2 he,
      normalized_levenshtein_eq_ratio s2 s1 (fun h => he h.symm),
      spec_levenshtein_comm, Nat.max_comm]

/-- C7: the text-aware cost model: rename is `1e9` across kinds, `0` on equal
labels, and otherwise `0.5` plus the Levenshtein distance of the label texts
normalized by the longer length, a quantity in `[0, 1]`; delete and insert
cost `1`. -/
theorem text_aware_cost_model (ld : List JSONLabel) (a b : Nat)
    (ha : a < ld.length) (hb : b < ld.length) :
    del a = 1 ∧ ins a = 1
    ∧ ((ldGet ld a).type ≠ (ldGet ld b).type → ren ld a b = MaxCost)
    ∧ (ldGet ld a = ldGet ld b → ren ld a b = 0)
    ∧ ((ldGet ld a).type = (ldGet ld b).type → (ldGet ld a).label ≠ (ldGet ld b).label →
        ren ld a b
            = 1 / 2 + (spec_levenshtein (ldGet ld a).label (ldGet ld b).label : ℚ)
              / ((max (ldGet ld a).label.length (ldGet ld b).label.length : Nat) : ℚ)
          ∧ 0 ≤ normalized_levenshtein (ldGet ld a).label (ldGet ld b).label
          ∧ normalized_levenshtein (ldGet ld a).label (ldGet ld b).label ≤ 1) := by
  refine ⟨rfl, rfl, ?_, ?_, ?_⟩
  · intro h
    unfold ren
    rw [if_pos h]
  · intro h
    unfold ren
    rw [if_neg (by rw [h]; simp), if_pos (by rw [h])]
  · intro ht hl
    refine ⟨?_, normalized_levenshtein_nonneg _ _, normalized_levenshtein_le_one _ _⟩
    unfold ren
    have hta : ¬(ldGet ld a).type ≠ (ldGet ld b).type := by simp [ht]
    rw [if_neg hta, if_neg hl, normalized_levenshtein_eq_ratio _ _ hl]

/-- Closed instance of the cost-model claim at a two-entry dictionary. -/
theorem text_aware_cost_model_witness :
    ren [⟨3, [97]⟩, ⟨3, [98]⟩] 0 1 = 1 / 2 + (1 : ℚ) / 1 := by
  have h := (text_aware_cost_model [⟨3, [97]⟩, ⟨3, [98]⟩] 0 1 (by norm_num)
    (by norm_num)).2.2.2.2 (by simp [ldGet]) (by simp [ldGet])
  rw [h.1]
  norm_num [ldGet, spec_levenshtein, levRev]

/-- C10: the text-aware rename cost is symmetric in its two label ids. -/
theorem ren_symmetric (ld : List JSONLabel) (a b : Nat)
    (ha : a < ld.length) (hb : b < ld.length) :
    ren ld a b = ren ld b a := by
  unfold ren
  by_cases ht : (ldGet ld a).type = (ldGet ld b).type
  · have hta : ¬(ldGet ld a).type ≠ (ldGet ld b).type := by simp [ht]
    have htb : ¬(ldGet ld b).type ≠ (ldGet ld a).type := by simp [ht]
    rw [if_neg hta, if_neg htb]
    by_cases hl : (ldGet ld a).label = (ldGet ld b).label
    · rw [if_pos hl, if_pos hl.symm]
    · rw [if_neg hl, if_neg (fun h => hl h.symm), normalized_levenshtein_comm]
  · rw [if_pos ht, if_pos (fun h : (ldGet ld b).type = (ldGet ld a).type => ht h.symm)]

/-- Closed instance of rename-cost symmetry. -/
theorem ren_symmetric_witness :
    ren [⟨3, [97]⟩, ⟨4, [98]⟩] 0 1 = ren [⟨3, [97]⟩, ⟨4, [98]⟩] 1 0 :=
  ren_symmetric [⟨3, [97]⟩, ⟨4, [98]⟩] 0 1 (by norm_num) (by norm_num)

/-! ## Pivot selection and matrix facts -/


theorem selectPivot_spec {β : Type} (documents : List (List β)) (hne : documents ≠ []) :
    (selectPivot documents).1 < documents.length
    ∧ (selectPivot documents).2 = (documents.getD (selectPivot documents).1 []).length
    ∧ (∀ i, i < documents.length →
        (documents.getD i []).length ≤ (selectPivot documents).2)
    ∧ (∀ i, i < (selectPivot documents).1 →
        (documents.getD i []).length < (selectPivot documents).2) := by
  have hlen : 1 ≤ documents.length := by
    cases documents with
    | nil => exact absurd rfl hne
    | cons d ds => simp
  have aux : ∀ k, 1 ≤ k →
      selectPivotInv documents k ((List.range k).foldl
        (fun acc i =>
          if (documents.getD i []).length > acc.2 then (i, (documents.getD i []).length)
          else acc) (0, 0)) := by
    intro k hk
    induction k, hk using Nat.le_induction with
    | base =>
        rw [show List.range 1 = [0] from rfl]
        simp only [List.foldl_cons, List.foldl_nil]
        unfold selectPivotInv
        split_ifs with h0
        · refine ⟨Nat.zero_lt_one, rfl, ?_, ?_⟩
          · intro i hi
            interval_cases i
            exact le_rfl
          · intro i hi
            exact absurd hi (by omega)
        · refine ⟨Nat.zero_lt_one, ?_, ?_, ?_⟩
          · show (0 : Nat) = (documents.getD 0 []).length
            omega
          · intro i hi
            interval_cases i
            show (documents.getD 0 []).length ≤ 0
            omega
          · intro i hi
            exact absurd hi (by omega)
    | succ k hk ih =>
        rw [List.range_succ, List.foldl_append]
        simp only [List.foldl_cons, List.foldl_nil]
        set acc := (List.range k).foldl
          (fun acc i =>
            if (documents.getD i []).length > acc.2 then (i, (documents.getD i []).length)
            else acc) (0, 0) with hacc
        obtain ⟨hlt, heq, hle, hstrict⟩ := ih
        unfold selectPivotInv
        split_ifs with h0
        · refine ⟨by omega, rfl, ?_, ?_⟩
          · intro i hi
            rcases Nat.lt_succ_iff_lt_or_eq.mp hi with hi' | rfl
            · exact le_of_lt (lt_of_le_of_lt (hle i hi') h0)
            · exact le_rfl
          · intro i hi
            exact lt_of_le_of_lt (hle i (by omega)) h0
        · refine ⟨by omega, heq, ?_, hstrict⟩
          intro i hi
          rcases Nat.lt_succ_iff_lt_or_eq.mp hi with hi' | rfl
          · exact hle i hi'
          · omega
  have h := aux documents.length hlen
  unfold selectPivotInv at h
  simpa only [selectPivot] using h

theorem fillRow_cases (target_size i : Nat) (results : List LookupResultElement) (M : Mat)
    (i' j' : Nat) :
    fillRow target_size i results M i' j' = M i' j'
    ∨ (i' = i ∧ j' < target_size ∧ ∃ res ∈ results,
        res.tree_id_1 = 0 ∧ res.tree_id_2 = (j' : Int) + 1
        ∧ fillRow target_size i results M i' j' = res.jedi_value) := by
  induction results generalizing M with
  | nil => left; rfl
  | cons r rs ih =>
      have hstep : fillRow target_size i (r :: rs) M
          = fillRow target_size i rs
              (if r.tree_id_1 ≠ 0 then M
               else if 0 ≤ r.tree_id_2 - 1 ∧ r.tree_id_2 - 1 < (target_size : Int) then
                 matUpdate M i (r.tree_id_2 - 1).toNat r.jedi_value
               else M) := rfl
      rw [hstep]
      rcases ih (if r.tree_id_1 ≠ 0 then M
          else if 0 ≤ r.tree_id_2 - 1 ∧ r.tree_id_2 - 1 < (target_size : Int) then
            matUpdate M i (r.tree_id_2 - 1).toNat r.jedi_value
          else M) with h | ⟨hi, hj, res, hres, h0, h2, hval⟩
      · by_cases h1 : r.tree_id_1 ≠ 0
        · left
          rw [h, if_pos h1]
        · by_cases hc : (0 : Int) ≤ r.tree_id_2 - 1 ∧ r.tree_id_2 - 1 < (target_size : Int)
          · by_cases hu : i' = i ∧ j' = (r.tree_id_2 - 1).toNat
            · right
              refine ⟨hu.1, ?_, r, List.mem_cons_self _ _, not_not.mp h1, ?_, ?_⟩
              · have h1' := hc.1
                have h2' := hc.2
                have h3' := hu.2
                omega
              · have h1' := hc.1
                have h3' := hu.2
                omega
              · rw [h, if_neg h1, if_pos hc]
                unfold matUpdate
                rw [if_pos hu]
            · left
              rw [h, if_neg h1, if_pos hc]
              unfold matUpdate
              rw [if_neg hu]
          · left
            rw [h, if_neg h1, if_neg hc]
      · right
        exact ⟨hi, hj, res, List.mem_cons_of_mem _ hres, h0, h2, hval⟩

theorem foldl_fillRow_cases {β : Type} (oracle : Oracle β) (td : List β) (t : Nat)
    (ps : List (Nat × β)) (M0 : Mat) (i j : Nat) :
    (ps.foldl (fun M p => fillRow t p.1 (oracle p.2 td) M) M0) i j = M0 i j
    ∨ (j < t ∧ ∃ p ∈ ps, p.1 = i ∧ ∃ res ∈ oracle p.2 td,
        res.tree_id_1 = 0 ∧ res.tree_id_2 = (j : Int) + 1
        ∧ (ps.foldl (fun M p => fillRow t p.1 (oracle p.2 td) M) M0) i j = res.jedi_value) := by
  induction ps generalizing M0 with
  | nil => left; rfl
  | cons q qs ih =>
      simp only [List.foldl_cons]
      rcases ih (fillRow t q.1 (oracle q.2 td) M0) with h | ⟨hj, p, hp, hpi, res, hres⟩
      · rw [h]
        rcases fillRow_cases t q.1 (oracle q.2 td) M0 i j with h' | ⟨hi, hj, res, hres, h0, h2, hval⟩
        · left; exact h'
        · right
          exact ⟨hj, q, List.mem_cons_self _ _, hi.symm, res, hres, h0, h2, h ▸ hval⟩
      · right
        exact ⟨hj, p, List.mem_cons_of_mem _ hp, hpi, res, hres⟩

theorem buildCostMatrix_cases {β : Type} (oracle : Oracle β) (pd td : List β) (i j : Nat) :
    buildCostMatrix oracle pd td i j = MaxCost
    ∨ (j < td.length ∧ ∃ x, pd[i]? = some x ∧ ∃ res ∈ oracle x td,
        res.tree_id_1 = 0 ∧ res.tree_id_2 = (j : Int) + 1
        ∧ buildCostMatrix oracle pd td i j = res.jedi_value) := by
  rcases foldl_fillRow_cases oracle td td.length pd.enum (fun _ _ => MaxCost) i j
    with h | ⟨hj, p, hp, hpi, res, hres⟩
  · left; exact h
  · right
    refine ⟨hj, p.2, ?_, res, hres⟩
    have := List.mem_enum_iff_getElem?.mp hp
    rwa [hpi] at this

/-- C1: for every processed pair the assignment matrix is square with side
`max(p, t)` — in the pivot strategy the side is `pivot_size`, which equals
`max(p, t)` because the pivot is a document of maximal component count — and
every cell not written by a verified lookup result holds `MaxCost = 1e9`. -/
theorem cost_matrix_dimension_and_padding {β : Type} (oracle : Oracle β)
    (documents : List (List β)) (hne : documents ≠ []) :
    (∀ k, k < documents.length →
      (documents.getD (selectPivot documents).1 []).length
        = max (documents.getD (selectPivot documents).1 []).length
            (documents.getD k []).length)
    ∧ (∀ p k : Nat,
        max (documents.getD k []).length (documents.getD p []).length
          = max (documents.getD p []).length (documents.getD k []).length)
    ∧ (∀ (pd td : List β) (i j : Nat),
        buildCostMatrix oracle pd td i j = MaxCost
        ∨ (j < td.length ∧ ∃ x, pd[i]? = some x ∧ ∃ res ∈ oracle x td,
            res.tree_id_1 = 0 ∧ res.tree_id_2 = (j : Int) + 1
            ∧ buildCostMatrix oracle pd td i j = res.jedi_value)) := by
  obtain ⟨hlt, heq, hle, _⟩ := selectPivot_spec documents hne
  refine ⟨?_, ?_, ?_⟩
  · intro k hk
    have := hle k hk
    rw [heq] at this
    exact (Nat.max_eq_left this).symm
  · intro p k
    exact Nat.max_comm _ _
  · intro pd td i j
    exact buildCostMatrix_cases oracle pd td i j

/-- Closed instance of the matrix claim on a concrete two-document input. -/
theorem cost_matrix_dimension_and_padding_witness :
    (([[0], [0, 1]] : List (List Nat)).getD (selectPivot [[0], [0, 1]]).1 []).length
      = max (([[0], [0, 1]] : List (List Nat)).getD (selectPivot [[0], [0, 1]]).1 []).length
          (([[0], [0, 1]] : List (List Nat)).getD 0 []).length :=
  (cost_matrix_dimension_and_padding (fun _ _ => []) [[0], [0, 1]] (by simp)).1 0 (by norm_num)

theorem foldr_skip_eq_filter_flatMap {γ : Type} (L : List Nat) (t : Nat) (g : Nat → List γ) :
    L.foldr (fun k acc => if k = t then acc else g k ++ acc) []
      = (L.filter (fun k => k ≠ t)).flatMap g := by
  induction L with
  | nil => rfl
  | cons a L ih =>
      by_cases h : a = t
      · simp [h, ih, List.filter_cons]
      · simp [h, ih, List.filter_cons]

/-- C6: in the pivot strategy the pivot is a document of maximal component
count, ties broken towards the lowest index, and the pair matcher runs on
`(P, T)` for exactly every other document `T`. -/
theorem pivot_selection {β : Type} (oracle : Oracle β) (solve : Solver)
    (documents : List (List β)) (cost_thresh : ℚ) (hne : documents ≠ []) :
    ((selectPivot documents).1 < documents.length
    ∧ (∀ i, i < documents.length →
        (documents.getD i []).length
          ≤ (documents.getD (selectPivot documents).1 []).length)
    ∧ (∀ i, i < documents.length →
        (documents.getD i []).length = (documents.getD (selectPivot documents).1 []).length →
        (selectPivot documents).1 ≤ i))
    ∧ n_way_match_pivot_matches oracle solve documents cost_thresh
        = ((List.range documents.length).filter
              (fun k => k ≠ (selectPivot documents).1)).flatMap
            (fun k =>
              pairMatchesPivot oracle solve (documents.getD (selectPivot documents).1 [])
                (documents.getD k []) (selectPivot documents).1 k cost_thresh) := by
  obtain ⟨hlt, heq, hle, hstrict⟩ := selectPivot_spec documents hne
  refine ⟨⟨hlt, ?_, ?_⟩, ?_⟩
  · intro i hi
    rw [← heq]
    exact hle i hi
  · intro i hi hieq
    by_contra hcon
    have hi' : i < (selectPivot documents).1 := by omega
    have := hstrict i hi'
    rw [← heq] at hieq
    omega
  · unfold n_way_match_pivot_matches
    exact foldr_skip_eq_filter_flatMap _ _ _

/-- Closed instance of the pivot-selection claim: on sizes `[1, 2]` the pivot
is document 1 and matching pairs it with document 0. -/
theorem pivot_selection_witness :
    (selectPivot ([[0], [0, 1]] : List (List Nat))).1 < 2 :=
  (pivot_selection (fun _ _ => []) (fun _ _ => none) [[0], [0, 1]] 25 (by simp)).1.1

/-! ## Emission bounds (threshold respect) -/

theorem mem_emitPivot {M : Mat} {mate : Nat → Int} {pi k ps ts : Nat} {ct : ℚ} {m : Match}
    (h : m ∈ emitPivot M mate pi k ps ts ct) : m.cost ≤ ct := by
  unfold emitPivot at h
  generalize List.range ps = L at h
  induction L with
  | nil => simp at h
  | cons i L ih =>
      simp only [List.foldr_cons] at h
      by_cases h1 : 0 ≤ mate i ∧ mate i < (ts : Int)
      · rw [if_pos h1] at h
        by_cases h2 : M i (mate i).toNat > ct
        · rw [if_pos h2] at h
          exact ih h
        · rw [if_neg h2] at h
          rcases List.mem_cons.mp h with rfl | h'
          · simpa using le_of_not_lt h2
          · exact ih h'
      · rw [if_neg h1] at h
        exact ih h

theorem mem_emitAll {M : Mat} {mate : Nat → Int} {p k ps ts : Nat} {ct : ℚ} {m : Match}
    (h : m ∈ emitAll M mate p k ps ts ct) : m.cost ≤ ct ∧ m.cost < MaxCost := by
  unfold emitAll at h
  generalize List.range ps = L at h
  induction L with
  | nil => simp at h
  | cons i L ih =>
      simp only [List.foldr_cons] at h
      by_cases h1 : 0 ≤ mate i ∧ mate i < (ts : Int)
      · rw [if_pos h1] at h
        by_cases h2 : M i (mate i).toNat < MaxCost
        · rw [if_pos h2] at h
          by_cases h3 : M i (mate i).toNat > ct
          · rw [if_pos h3] at h
            exact ih h
          · rw [if_neg h3] at h
            rcases List.mem_cons.mp h with rfl | h'
            · exact ⟨by simpa using le_of_not_lt h3, by simpa using h2⟩
            · exact ih h'
        · rw [if_neg h2] at h
          exact ih h
      · rw [if_neg h1] at h
        exact ih h

theorem mem_pairMatchesPivot {β : Type} {oracle : Oracle β} {solve : Solver}
    {pd td : List β} {pi k : Nat} {ct : ℚ} {m : Match}
    (h : m ∈ pairMatchesPivot oracle solve pd td pi k ct) : m.cost ≤ ct := by
  unfold pairMatchesPivot at h
  dsimp only at h
  cases hs : solve pd.length (buildCostMatrix oracle pd td) with
  | none => rw [hs] at h; simp at h
  | some mate => rw [hs] at h; exact mem_emitPivot h

theorem mem_pairMatchesAll {β : Type} {oracle : Oracle β} {solve : Solver}
    {pd td : List β} {p k : Nat} {ct : ℚ} {m : Match}
    (h : m ∈ pairMatchesAll oracle solve pd td p k ct) : m.cost ≤ ct ∧ m.cost < MaxCost := by
  unfold pairMatchesAll at h
  dsimp only at h
  cases hs : solve (max td.length pd.length) (buildCostMatrix oracle pd td) with
  | none => rw [hs] at h; simp at h
  | some mate => rw [hs] at h; exact mem_emitAll h

theorem foldr_append_eq_flatMap {α γ : Type} (L : List α) (g : α → List γ) :
    L.foldr (fun a acc => g a ++ acc) [] = L.flatMap g := by
  induction L with
  | nil => rfl
  | cons a L ih => simp [ih]

/-- C2 (amended): the misc strategies respect the threshold — every match
emitted by `n_way_match_pivot` has cost `≤ cost_thresh` (hence `< MaxCost`
whenever `cost_thresh < MaxCost`, in particular at the default `25`), and every
match emitted by `n_way_match_all` additionally has cost `< MaxCost`
unconditionally; the coordinator `n_way_match` has no such filters. -/
theorem emitted_cost_bounds {β : Type} (oracle : Oracle β) (solve : Solver)
    (documents : List (List β)) (cost_thresh : ℚ) (m : Match) :
    (m ∈ n_way_match_pivot_matches oracle solve documents cost_thresh →
      m.cost ≤ cost_thresh ∧ (cost_thresh < MaxCost → m.cost < MaxCost))
    ∧ (m ∈ n_way_match_all_matches oracle solve documents cost_thresh →
      m.cost ≤ cost_thresh ∧ m.cost < MaxCost) := by
  constructor
  · intro h
    unfold n_way_match_pivot_matches at h
    rw [foldr_skip_eq_filter_flatMap] at h
    rw [List.mem_flatMap] at h
    obtain ⟨k, _, hk⟩ := h
    have := mem_pairMatchesPivot hk
    exact ⟨this, fun hlt => lt_of_le_of_lt this hlt⟩
  · intro h
    unfold n_way_match_all_matches at h
    rw [foldr_append_eq_flatMap] at h
    rw [List.mem_flatMap] at h
    obtain ⟨p, _, hp⟩ := h
    rw [foldr_skip_eq_filter_flatMap, List.mem_flatMap] at hp
    obtain ⟨k, _, hk⟩ := hp
    exact mem_pairMatchesAll hk

/-- Closed instance of the threshold bound for a match emitted by the pivot
strategy. -/
theorem emitted_cost_bounds_witness :
    ((10 : ℚ) ≤ 25 ∧ ((25 : ℚ) < MaxCost → (10 : ℚ) < MaxCost)) := by
  have hm : (⟨0, 1, 0, 0, 10⟩ : Match) ∈ n_way_match_pivot_matches
      (fun (_ : Nat) _ => [⟨0, 1, 10⟩]) (fun _ _ => some (fun _ => 0)) [[5], [6]] 25 := by
    rw [show n_way_match_pivot_matches (fun (_ : Nat) _ => [⟨0, 1, 10⟩])
        (fun _ _ => some (fun _ => 0)) [[5], [6]] (25 : ℚ) = [⟨0, 1, 0, 0, 10⟩] from rfl]
    exact List.mem_cons_self _ _
  exact (emitted_cost_bounds (fun (_ : Nat) _ => [⟨0, 1, 10⟩]) (fun _ _ => some (fun _ => 0))
    [[5], [6]] 25 ⟨0, 1, 0, 0, 10⟩).1 hm


/-- C2 (counterexample): the coordinator `n_way_match` emits a match of cost
`30`, above the claimed bound `cost_thresh = 25`, because its emission loop
applies no cost filter at all. -/
theorem coordinator_unfiltered_cost_cex :
    coordinator_n_way_match cexOracle cexSolver [some cexDoc, some cexDoc]
        = [⟨0, 1, 0, 0, 30⟩]
      ∧ ¬((30 : ℚ) ≤ default_cost_thresh) := by
  constructor
  · rfl
  · norm_num [default_cost_thresh]

/-! ## Empty input -/

theorem getD_empty {β : Type} (documents : List (List β))
    (hempty : ∀ d ∈ documents, d = []) (i : Nat) : documents.getD i [] = [] := by
  by_cases h : i < documents.length
  · rw [List.getD_eq_getElem documents [] h]
    exact hempty _ (List.getElem_mem h)
  · exact List.getD_eq_default _ _ (by omega)

theorem pivotMatches_nil_of_empty {β : Type} (oracle : Oracle β) (solve : Solver)
    (documents : List (List β)) (ct : ℚ) (hempty : ∀ d ∈ documents, d = []) :
    n_way_match_pivot_matches oracle solve documents ct = [] := by
  unfold n_way_match_pivot_matches
  rw [foldr_skip_eq_filter_flatMap]
  rw [List.flatMap_eq_nil_iff]
  intro k _
  rw [getD_empty documents hempty]
  unfold pairMatchesPivot
  dsimp only
  cases solve (List.length ([] : List β)) (buildCostMatrix oracle [] (documents.getD k [])) with
  | none => rfl
  | some mate => rfl

theorem allMatches_nil_of_empty {β : Type} (oracle : Oracle β) (solve : Solver)
    (documents : List (List β)) (ct : ℚ) (hempty : ∀ d ∈ documents, d = []) :
    n_way_match_all_matches oracle solve documents ct = [] := by
  unfold n_way_match_all_matches
  rw [foldr_append_eq_flatMap]
  rw [List.flatMap_eq_nil_iff]
  intro p _
  rw [foldr_skip_eq_filter_flatMap]
  rw [List.flatMap_eq_nil_iff]
  intro k _
  rw [getD_empty documents hempty p, getD_empty documents hempty k]
  unfold pairMatchesAll
  dsimp only
  cases solve (max (List.length ([] : List β)) (List.length ([] : List β)))
      (buildCostMatrix oracle [] []) with
  | none => rfl
  | some mate => rfl

/-- C4: on empty input — no documents, or documents whose component lists are
all empty — every entry point returns an empty result normally; in particular
the pivot strategy returns an empty group list on zero documents. -/
theorem empty_input_empty_result {β : Type} (oracle : Oracle β) (oracle2 : Oracle (List Byte))
    (solve : Solver) (cost_thresh : ℚ) (documents : List (List β))
    (hempty : ∀ d ∈ documents, d = []) :
    n_way_match_pivot oracle solve documents cost_thresh = []
    ∧ n_way_match_all oracle solve documents cost_thresh = []
    ∧ n_way_match_pivot oracle solve ([] : List (List β)) cost_thresh = []
    ∧ n_way_match_all oracle solve ([] : List (List β)) cost_thresh = []
    ∧ coordinator_n_way_match oracle2 solve [] = [] := by
  refine ⟨?_, ?_, ?_, ?_, rfl⟩
  · unfold n_way_match_pivot
    rw [pivotMatches_nil_of_empty oracle solve documents cost_thresh hempty]
    rfl
  · unfold n_way_match_all
    rw [allMatches_nil_of_empty oracle solve documents cost_thresh hempty]
    rfl
  · unfold n_way_match_pivot
    rw [pivotMatches_nil_of_empty oracle solve [] cost_thresh (by intro d hd; simp at hd)]
    rfl
  · unfold n_way_match_all
    rw [allMatches_nil_of_empty oracle solve [] cost_thresh (by intro d hd; simp at hd)]
    rfl

/-- Closed instance of the empty-input claim at two componentless documents. -/
theorem empty_input_empty_result_witness :
    n_way_match_pivot (fun (_ : Nat) _ => []) (fun _ _ => none) [[], []] 25 = [] :=
  (empty_input_empty_result (fun (_ : Nat) _ => []) (fun _ _ => [])
    (fun _ _ => none) 25 [[], []]
    (by intro d hd; simp at hd; rcases hd with rfl | rfl <;> rfl)).1

/-! ## Union–find: basic table lemmas -/

theorem cidEq_iff {x y : ComponentId} : cidEq x y = true ↔ cidKey x = cidKey y := by
  simp [cidEq, cidKey, Prod.ext_iff]

theorem cidEq_false_iff {x y : ComponentId} : cidEq x y = false ↔ ¬cidKey x = cidKey y := by
  rw [← cidEq_iff]
  simp

theorem cidEq_congr {z x y : ComponentId} (h : cidKey x = cidKey y) :
    cidEq z x = cidEq z y := by
  by_cases hz : cidKey z = cidKey x
  · rw [cidEq_iff.mpr hz, cidEq_iff.mpr (hz.trans h)]
  · rw [cidEq_false_iff.mpr hz, cidEq_false_iff.mpr (fun hh => hz (hh.trans h.symm))]

theorem pLookup_congr {m : List (ComponentId × ComponentId)} {x y : ComponentId}
    (h : cidKey x = cidKey y) : pLookup m x = pLookup m y := by
  unfold pLookup
  have hfun : (fun e : ComponentId × ComponentId => cidEq e.1 x)
      = (fun e => cidEq e.1 y) := funext fun e => cidEq_congr h
  rw [hfun]

theorem pLookup_mem {m : List (ComponentId × ComponentId)} {x p : ComponentId}
    (h : pLookup m x = some p) : ∃ e ∈ m, cidKey e.1 = cidKey x ∧ e.2 = p := by
  unfold pLookup at h
  cases hf : m.find? (fun e => cidEq e.1 x) with
  | none => rw [hf] at h; simp at h
  | some e =>
      rw [hf] at h
      refine ⟨e, List.mem_of_find?_eq_some hf, ?_, ?_⟩
      · have hp := List.find?_some (p := fun e : ComponentId × ComponentId => cidEq e.1 x) hf
        exact cidEq_iff.mp hp
      · simpa using h

theorem pLookup_of_mem_ndk {m : List (ComponentId × ComponentId)}
    (hndk : m.Pairwise (fun e1 e2 => cidKey e1.1 ≠ cidKey e2.1)) {e : ComponentId × ComponentId}
    (he : e ∈ m) : pLookup m e.1 = some e.2 := by
  induction m with
  | nil => simp at he
  | cons e0 rest ih =>
      rcases List.mem_cons.mp he with rfl | he'
      · unfold pLookup
        rw [List.find?_cons_of_pos (p := fun e' : ComponentId × ComponentId => cidEq e'.1 e.1) _ (cidEq_iff.mpr rfl)]
        rfl
      · have hne : cidKey e0.1 ≠ cidKey e.1 :=
          (List.pairwise_cons.mp hndk).1 e he'
        unfold pLookup
        rw [List.find?_cons_of_neg (p := fun e' : ComponentId × ComponentId => cidEq e'.1 e.1) _
          (by simpa using cidEq_false_iff.mpr hne)]
        exact ih (List.pairwise_cons.mp hndk).2 he'

theorem mem_pInsert {m : List (ComponentId × ComponentId)} {x v : ComponentId}
    {e' : ComponentId × ComponentId} (h : e' ∈ pInsert m x v) :
    e' ∈ m ∨ (cidKey e'.1 = cidKey x ∧ e'.2 = v) := by
  induction m with
  | nil =>
      unfold pInsert at h
      simp at h
      subst h
      exact Or.inr ⟨rfl, rfl⟩
  | cons e rest ih =>
      unfold pInsert at h
      split_ifs at h with he
      · rcases List.mem_cons.mp h with rfl | h'
        · exact Or.inr ⟨cidEq_iff.mp he, rfl⟩
        · exact Or.inl (List.mem_cons_of_mem _ h')
      · rcases List.mem_cons.mp h with rfl | h'
        · exact Or.inl (List.mem_cons_self _ _)
        · rcases ih h' with h'' | h''
          · exact Or.inl (List.mem_cons_of_mem _ h'')
          · exact Or.inr h''

theorem mem_pInsert_of_mem {m : List (ComponentId × ComponentId)}
    {x v : ComponentId} {e : ComponentId × ComponentId} (he : e ∈ m)
    (hne : cidKey e.1 ≠ cidKey x) : e ∈ pInsert m x v := by
  induction m with
  | nil => simp at he
  | cons e0 rest ih =>
      unfold pInsert
      rcases List.mem_cons.mp he with rfl | he'
      · rw [if_neg]
        · exact List.mem_cons_self _ _
        · intro hc
          exact hne (cidEq_iff.mp (by simpa using hc))
      · split_ifs with he0
        · exact List.mem_cons_of_mem _ he'
        · exact List.mem_cons_of_mem _ (ih he')

theorem pInsert_keys_old {m : List (ComponentId × ComponentId)}
    {x v : ComponentId} {e : ComponentId × ComponentId} (he : e ∈ m) :
    ∃ e' ∈ pInsert m x v, cidKey e'.1 = cidKey e.1 := by
  induction m with
  | nil => simp at he
  | cons e0 rest ih =>
      unfold pInsert
      split_ifs with he0
      · rcases List.mem_cons.mp he with rfl | he'
        · exact ⟨(e.1, v), List.mem_cons_self _ _, rfl⟩
        · exact ⟨e, List.mem_cons_of_mem _ he', rfl⟩
      · rcases List.mem_cons.mp he with rfl | he'
        · exact ⟨e, List.mem_cons_self _ _, rfl⟩
        · obtain ⟨e', he'', hk⟩ := ih he'
          exact ⟨e', List.mem_cons_of_mem _ he'', hk⟩

theorem pInsert_key_new (m : List (ComponentId × ComponentId)) (x v : ComponentId) :
    ∃ e' ∈ pInsert m x v, cidKey e'.1 = cidKey x ∧ e'.2 = v := by
  induction m with
  | nil => exact ⟨(x, v), List.mem_cons_self _ _, rfl, rfl⟩
  | cons e0 rest ih =>
      unfold pInsert
      split_ifs with he0
      · exact ⟨(e0.1, v), List.mem_cons_self _ _, cidEq_iff.mp he0, rfl⟩
      · obtain ⟨e', he', hk, hv⟩ := ih
        exact ⟨e', List.mem_cons_of_mem _ he', hk, hv⟩

theorem pInsert_ndk {m : List (ComponentId × ComponentId)} {x v : ComponentId}
    (hndk : m.Pairwise (fun e1 e2 => cidKey e1.1 ≠ cidKey e2.1)) :
    (pInsert m x v).Pairwise (fun e1 e2 => cidKey e1.1 ≠ cidKey e2.1) := by
  induction m with
  | nil => simp [pInsert]
  | cons e0 rest ih =>
      obtain ⟨h0, hrest⟩ := List.pairwise_cons.mp hndk
      unfold pInsert
      split_ifs with he0
      · exact List.pairwise_cons.mpr ⟨h0, hrest⟩
      · refine List.pairwise_cons.mpr ⟨?_, ih hrest⟩
        intro e' he'
        rcases mem_pInsert he' with h' | ⟨hk, _⟩
        · exact h0 e' h'
        · rw [hk]
          have hne0 : cidEq e0.1 x = false := by simpa using he0
          exact cidEq_false_iff.mp hne0

theorem pLookup_pInsert (m : List (ComponentId × ComponentId)) (x v y : ComponentId) :
    pLookup (pInsert m x v) y
      = if cidKey y = cidKey x then some v else pLookup m y := by
  induction m with
  | nil =>
      show pLookup [(x, v)] y = _
      by_cases h : cidKey y = cidKey x
      · rw [if_pos h]
        unfold pLookup
        rw [List.find?_cons_of_pos (p := fun e : ComponentId × ComponentId => cidEq e.1 y)
          (a := (x, v)) _ (cidEq_iff.mpr h.symm)]
        rfl
      · rw [if_neg h]
        unfold pLookup
        rw [List.find?_cons_of_neg (p := fun e : ComponentId × ComponentId => cidEq e.1 y) _ (by
          simpa using cidEq_false_iff.mpr (fun hc => h hc.symm))]
  | cons e0 rest ih =>
      show pLookup (if cidEq e0.1 x then (e0.1, v) :: rest else e0 :: pInsert rest x v) y = _
      by_cases he0 : cidEq e0.1 x
      · rw [if_pos he0]
        by_cases hy : cidEq e0.1 y
        · have h1 : cidKey y = cidKey x :=
            (cidEq_iff.mp hy).symm.trans (cidEq_iff.mp he0)
          rw [if_pos h1]
          unfold pLookup
          rw [List.find?_cons_of_pos (p := fun e : ComponentId × ComponentId => cidEq e.1 y)
            (a := (e0.1, v)) _ hy]
          rfl
        · have h1 : ¬cidKey y = cidKey x := fun hc =>
            hy (cidEq_iff.mpr ((cidEq_iff.mp he0).trans hc.symm))
          rw [if_neg h1]
          unfold pLookup
          rw [List.find?_cons_of_neg (p := fun e : ComponentId × ComponentId => cidEq e.1 y)
            (a := (e0.1, v)) _ (by simpa using hy),
            List.find?_cons_of_neg (p := fun e : ComponentId × ComponentId => cidEq e.1 y)
            (a := e0) _ (by simpa using hy)]
      · rw [if_neg he0]
        have hf0 : cidEq e0.1 x = false := by simpa using he0
        by_cases hy : cidEq e0.1 y
        · have h1 : ¬cidKey y = cidKey x := fun hc =>
            (cidEq_false_iff.mp hf0) ((cidEq_iff.mp hy).trans hc)
          rw [if_neg h1]
          unfold pLookup
          rw [List.find?_cons_of_pos (p := fun e : ComponentId × ComponentId => cidEq e.1 y)
            (a := e0) _ hy, List.find?_cons_of_pos
            (p := fun e : ComponentId × ComponentId => cidEq e.1 y) (a := e0) _ hy]
        · unfold pLookup
          rw [List.find?_cons_of_neg (p := fun e : ComponentId × ComponentId => cidEq e.1 y)
            (a := e0) _ (by simpa using hy),
            List.find?_cons_of_neg (p := fun e : ComponentId × ComponentId => cidEq e.1 y)
            (a := e0) _ (by simpa using hy)]
          exact ih

theorem pInsert_length_ge (m : List (ComponentId × ComponentId)) (x v : ComponentId) :
    m.length ≤ (pInsert m x v).length := by
  induction m with
  | nil => simp [pInsert]
  | cons e0 rest ih =>
      unfold pInsert
      split_ifs with he0
      · simp
      · simpa using ih


/-! ## Parent-chain lemmas -/

theorem PChain_congr {m : List (ComponentId × ComponentId)} {x y : ComponentId} {n : Nat}
    {r : ComponentId} (hk : cidKey x = cidKey y) (hch : PChain m x n r) :
    ∃ r', PChain m y n r' ∧ cidKey r' = cidKey r ∧ (1 ≤ n → r' = r) := by
  cases hch with
  | root _ hroot =>
      refine ⟨y, PChain.root y ?_, hk.symm, ?_⟩
      · intro p hp
        rw [← pLookup_congr hk] at hp
        rw [cidEq_congr hk.symm]
        exact hroot p hp
      · intro h
        exact absurd h (by omega)
  | step _ p n' r hp hnp htail =>
      refine ⟨r, ?_, rfl, fun _ => rfl⟩
      exact PChain.step y p n' r (by rw [← pLookup_congr hk]; exact hp)
        (by rw [cidEq_congr hk.symm]; exact hnp) htail

theorem PChain_unique {m : List (ComponentId × ComponentId)} {x : ComponentId} {n n' : Nat}
    {r r' : ComponentId} (h1 : PChain m x n r) (h2 : PChain m x n' r') :
    n = n' ∧ r = r' := by
  induction h1 generalizing n' r' with
  | root z hroot =>
      cases h2 with
      | root _ _ => exact ⟨rfl, rfl⟩
      | step _ p k r2 hp hnp htail => exact absurd (hroot p hp) (by simp [hnp])
  | step z p k r1 hp hnp htail ih =>
      cases h2 with
      | root _ hroot => exact absurd (hroot p hp) (by simp [hnp])
      | step _ p2 k2 r2 hp2 hnp2 htail2 =>
          have hpe : p = p2 := by
            rw [hp] at hp2
            exact Option.some.inj hp2
          subst hpe
          obtain ⟨hn, hr⟩ := ih htail2
          exact ⟨by omega, hr⟩

theorem PChain_root_end {m : List (ComponentId × ComponentId)} {x : ComponentId} {n : Nat}
    {r : ComponentId} (hch : PChain m x n r) : PChain m r 0 r := by
  induction hch with
  | root z hroot => exact PChain.root z hroot
  | step z p k r1 hp hnp htail ih => exact ih

theorem PChain_key_ne_root {m : List (ComponentId × ComponentId)} {x : ComponentId} {n : Nat}
    {r : ComponentId} (hch : PChain m x (n + 1) r) : cidKey x ≠ cidKey r := by
  intro hk
  have hroot := PChain_root_end hch
  obtain ⟨r', hch', _, _⟩ := PChain_congr (hk.symm) hroot
  obtain ⟨hn, _⟩ := PChain_unique hch hch'
  omega

theorem PChain_nodes {m : List (ComponentId × ComponentId)} {x : ComponentId} {n : Nat}
    {r : ComponentId} (hch : PChain m x n r) :
    ∃ ks : List (Nat × Nat), ks.length = n ∧ ks.Nodup
      ∧ (∀ k ∈ ks, ∃ e ∈ m, cidKey e.1 = k)
      ∧ (∀ i : Fin ks.length, ∃ z, cidKey z = ks.get i ∧ PChain m z (n - i.1) r) := by
  induction hch with
  | root z hroot =>
      refine ⟨[], rfl, List.nodup_nil, by simp, ?_⟩
      intro i
      exact absurd i.2 (by simp)
  | step z p k r1 hp hnp htail ih =>
      obtain ⟨ks, hlen, hnodup, hmem, hsub⟩ := ih
      refine ⟨cidKey z :: ks, by simp [hlen], ?_, ?_, ?_⟩
      · rw [List.nodup_cons]
        refine ⟨?_, hnodup⟩
        intro hin
        obtain ⟨i, hi⟩ := List.mem_iff_get.mp hin
        obtain ⟨w, hw, hchw⟩ := hsub i
        obtain ⟨r'', hch'', _, _⟩ := PChain_congr (show cidKey w = cidKey z from hw.trans hi) hchw
        have hchz : PChain m z (k + 1) r1 := PChain.step z p k r1 hp hnp htail
        obtain ⟨hn, _⟩ := PChain_unique hch'' hchz
        have hik : i.1 < ks.length := i.2
        omega
      · intro key hkey
        rcases List.mem_cons.mp hkey with rfl | h'
        · obtain ⟨e, he, hke, _⟩ := pLookup_mem hp
          exact ⟨e, he, hke⟩
        · exact hmem key h'
      · intro i
        rcases i with ⟨iv, hiv⟩
        cases iv with
        | zero =>
            refine ⟨z, rfl, ?_⟩
            simpa using PChain.step z p k r1 hp hnp htail
        | succ j =>
            have hj : j < ks.length := by simpa using hiv
            obtain ⟨w, hw, hchw⟩ := hsub ⟨j, hj⟩
            refine ⟨w, ?_, ?_⟩
            · simpa using hw
            · have harith : k + 1 - (j + 1) = k - j := by omega
              rw [harith]
              exact hchw

theorem PChain_length_le {m : List (ComponentId × ComponentId)} {x : ComponentId} {n : Nat}
    {r : ComponentId} (hch : PChain m x n r) : n ≤ m.length := by
  obtain ⟨ks, hlen, hnodup, hmem, _⟩ := PChain_nodes hch
  have hsub : ks ⊆ m.map (fun e => cidKey e.1) := by
    intro k hk
    obtain ⟨e, he, hke⟩ := hmem k hk
    exact List.mem_map.mpr ⟨e, he, hke⟩
  have h1 : ks.toFinset.card = ks.length := List.toFinset_card_of_nodup hnodup
  have h2 : ks.toFinset ⊆ (m.map (fun e => cidKey e.1)).toFinset := by
    intro a ha
    rw [List.mem_toFinset] at ha ⊢
    exact hsub ha
  have h3 : (m.map (fun e => cidKey e.1)).toFinset.card
      ≤ (m.map (fun e => cidKey e.1)).length := List.toFinset_card_le _
  have h4 := Finset.card_le_card h2
  simp only [List.length_map] at h3
  omega

/-! ## Chains and the edge closure -/

theorem PChain_rel {m : List (ComponentId × ComponentId)} {x : ComponentId} {n : Nat}
    {r : ComponentId} (hch : PChain m x n r) : Relation.EqvGen (edge m) (cidKey x) (cidKey r) := by
  induction hch with
  | root z _ => exact Relation.EqvGen.refl _
  | step z p k r1 hp hnp htail ih =>
      refine Relation.EqvGen.trans _ (cidKey p) _ ?_ ih
      obtain ⟨e, he, hk, hv⟩ := pLookup_mem hp
      exact Relation.EqvGen.rel _ _ ⟨e, he, hk, by rw [hv]⟩

theorem eqvGen_lift {α : Type} {r s : α → α → Prop} (h : ∀ a b, r a b → Relation.EqvGen s a b) :
    ∀ a b, Relation.EqvGen r a b → Relation.EqvGen s a b := by
  intro a b hab
  induction hab with
  | rel u w huw => exact h u w huw
  | refl u => exact Relation.EqvGen.refl u
  | symm u w _ ih => exact Relation.EqvGen.symm _ _ ih
  | trans u w z _ _ ih1 ih2 => exact Relation.EqvGen.trans _ _ _ ih1 ih2

theorem eqvGen_congr {α : Type} {r s : α → α → Prop} (h : ∀ a b, r a b ↔ s a b) :
    ∀ a b, (Relation.EqvGen r a b ↔ Relation.EqvGen s a b) := by
  intro a b
  constructor
  · exact eqvGen_lift (fun u w huw => Relation.EqvGen.rel u w ((h u w).mp huw)) a b
  · exact eqvGen_lift (fun u w huw => Relation.EqvGen.rel u w ((h u w).mpr huw)) a b

theorem eqvGen_addPair_of_rel {R : (Nat × Nat) → (Nat × Nat) → Prop} {u v : Nat × Nat}
    (h : Relation.EqvGen R u v) : ∀ a b, (Relation.EqvGen (addPair R u v) a b ↔ Relation.EqvGen R a b) := by
  intro a b
  constructor
  · refine eqvGen_lift ?_ a b
    intro c d hcd
    rcases hcd with hcd | ⟨rfl, rfl⟩
    · exact Relation.EqvGen.rel _ _ hcd
    · exact h
  · refine eqvGen_lift ?_ a b
    intro c d hcd
    exact Relation.EqvGen.rel _ _ (Or.inl hcd)

theorem eqvGen_addPair_congr {R S : (Nat × Nat) → (Nat × Nat) → Prop} {u v : Nat × Nat}
    (h : ∀ a b, Relation.EqvGen R a b ↔ Relation.EqvGen S a b) :
    ∀ a b, (Relation.EqvGen (addPair R u v) a b ↔ Relation.EqvGen (addPair S u v) a b) := by
  intro a b
  constructor
  · refine eqvGen_lift ?_ a b
    intro c d hcd
    rcases hcd with hcd | ⟨rfl, rfl⟩
    · exact eqvGen_lift (fun e f hef => Relation.EqvGen.rel e f (Or.inl hef)) c d
        ((h c d).mp (Relation.EqvGen.rel _ _ hcd))
    · exact Relation.EqvGen.rel _ _ (Or.inr ⟨rfl, rfl⟩)
  · refine eqvGen_lift ?_ a b
    intro c d hcd
    rcases hcd with hcd | ⟨rfl, rfl⟩
    · exact eqvGen_lift (fun e f hef => Relation.EqvGen.rel e f (Or.inl hef)) c d
        ((h c d).mpr (Relation.EqvGen.rel _ _ hcd))
    · exact Relation.EqvGen.rel _ _ (Or.inr ⟨rfl, rfl⟩)

theorem eqvGen_addPair_move {R : (Nat × Nat) → (Nat × Nat) → Prop} {u v u' v' : Nat × Nat}
    (hu : Relation.EqvGen R u u') (hv : Relation.EqvGen R v v') :
    ∀ a b, (Relation.EqvGen (addPair R u v) a b ↔ Relation.EqvGen (addPair R u' v') a b) := by
  have base : ∀ (c d : Nat × Nat), Relation.EqvGen R c d → ∀ (p q : Nat × Nat),
      Relation.EqvGen (addPair R p q) c d :=
    fun c d hcd p q => eqvGen_lift (fun e f hef => Relation.EqvGen.rel e f (Or.inl hef)) c d hcd
  intro a b
  constructor
  · refine eqvGen_lift ?_ a b
    intro c d hcd
    rcases hcd with hcd | ⟨rfl, rfl⟩
    · exact Relation.EqvGen.rel _ _ (Or.inl hcd)
    · refine Relation.EqvGen.trans _ u' _ (base _ _ hu _ _) ?_
      refine Relation.EqvGen.trans _ v' _ (Relation.EqvGen.rel _ _ (Or.inr ⟨rfl, rfl⟩)) ?_
      exact Relation.EqvGen.symm _ _ (base _ _ hv _ _)
  · refine eqvGen_lift ?_ a b
    intro c d hcd
    rcases hcd with hcd | ⟨rfl, rfl⟩
    · exact Relation.EqvGen.rel _ _ (Or.inl hcd)
    · refine Relation.EqvGen.trans _ u _ (Relation.EqvGen.symm _ _ (base _ _ hu _ _)) ?_
      refine Relation.EqvGen.trans _ v _ (Relation.EqvGen.rel _ _ (Or.inr ⟨rfl, rfl⟩)) ?_
      exact base _ _ hv _ _

theorem PChain_root_key_mem {m : List (ComponentId × ComponentId)}
    (hvk : ∀ e ∈ m, ∃ e' ∈ m, cidKey e'.1 = cidKey e.2)
    {z : ComponentId} {n : Nat} {r : ComponentId} (hch : PChain m z (n + 1) r) :
    ∃ e ∈ m, cidKey e.1 = cidKey r := by
  induction n generalizing z with
  | zero =>
      cases hch with
      | step _ p k r1 hp hnp htail =>
          cases htail with
          | root _ _ =>
              obtain ⟨e, he, _, hv⟩ := pLookup_mem hp
              obtain ⟨e', he', hk⟩ := hvk e he
              exact ⟨e', he', by rw [hk, hv]⟩
  | succ j ih =>
      cases hch with
      | step _ p k r1 hp hnp htail => exact ih htail

/-- Effect of one path-compression write `parent[x] = r` (including the fresh
`parent[x] = x` initialisation, where `r = x`): keys gain `x`, the invariant
is preserved, every chain keeps its root, and the generated equivalence is
unchanged. -/
theorem pInsert_reroute {m : List (ComponentId × ComponentId)} {x r : ComponentId} {nx : Nat}
    (hinv : UFInv m) (hx : PChain m x nx r) (hr : PChain m r 0 r) :
    (∀ e ∈ m, ∃ e' ∈ pInsert m x r, cidKey e'.1 = cidKey e.1)
    ∧ (∀ e' ∈ pInsert m x r, (∃ e ∈ m, cidKey e.1 = cidKey e'.1) ∨ cidKey e'.1 = cidKey x)
    ∧ UFInv (pInsert m x r)
    ∧ (∀ z n' r', PChain m z n' r' → ∃ n'', PChain (pInsert m x r) z n'' r')
    ∧ (∀ a b, Relation.EqvGen (edge (pInsert m x r)) a b ↔ Relation.EqvGen (edge m) a b)
    ∧ PChain (pInsert m x r) r 0 r
    ∧ (∃ e ∈ pInsert m x r, cidKey e.1 = cidKey r) := by
  have hrkey : ∃ e ∈ pInsert m x r, cidKey e.1 = cidKey r := by
    cases nx with
    | zero =>
        cases hx with
        | root _ _ =>
            obtain ⟨e', he', hk, _⟩ := pInsert_key_new m x x
            exact ⟨e', he', hk⟩
    | succ k =>
        obtain ⟨e, he, hk⟩ := PChain_root_key_mem hinv.vk hx
        have hne : cidKey e.1 ≠ cidKey x := by
          rw [hk]
          exact fun hc => PChain_key_ne_root hx hc.symm
        exact ⟨e, mem_pInsert_of_mem he hne, hk⟩
  have hroot' : PChain (pInsert m x r) r 0 r := by
    cases nx with
    | zero =>
        cases hx with
        | root _ _ =>
            refine PChain.root x fun p hp => ?_
            rw [pLookup_pInsert, if_pos rfl] at hp
            rw [← Option.some.inj hp]
            exact cidEq_iff.mpr rfl
    | succ k =>
        have hne : cidKey r ≠ cidKey x := fun hc => PChain_key_ne_root hx hc.symm
        refine PChain.root r fun p hp => ?_
        rw [pLookup_pInsert, if_neg hne] at hp
        cases hr with
        | root _ hroot => exact hroot p hp
  have chains : ∀ z n' r', PChain m z n' r' → ∃ n'', PChain (pInsert m x r) z n'' r' := by
    intro z n' r' hch
    induction hch with
    | root w hroot =>
        by_cases hw : cidKey w = cidKey x
        · -- w is (key-equal to) x, and x is then a root, so r = x
          obtain ⟨r'', hch'', _, _⟩ := PChain_congr hw (PChain.root w hroot)
          obtain ⟨_, hre⟩ := PChain_unique hch'' hx
          refine ⟨0, PChain.root w fun p hp => ?_⟩
          rw [pLookup_pInsert, if_pos hw] at hp
          rw [← Option.some.inj hp]
          cases hch'' with
          | root _ _ =>
              rw [← hre]
              exact cidEq_iff.mpr hw.symm
        · refine ⟨0, PChain.root w fun p hp => ?_⟩
          rw [pLookup_pInsert, if_neg hw] at hp
          exact hroot p hp
    | step w p k r1 hp hnp htail ih =>
        by_cases hw : cidKey w = cidKey x
        · -- w's chain is x's chain; it gets rerouted straight to the root
          obtain ⟨r2, hch2, hk2, hex⟩ := PChain_congr hw (PChain.step w p k r1 hp hnp htail)
          have hr2 : r2 = r1 := hex (by omega)
          subst hr2
          obtain ⟨_, hre⟩ := PChain_unique hch2 hx
          have hne : cidKey w ≠ cidKey r := by
            rw [hw]
            exact PChain_key_ne_root (hre ▸ hch2)
          have hstep : PChain (pInsert m x r) w 1 r := by
            refine PChain.step w r 0 r ?_ ?_ hroot'
            · rw [pLookup_pInsert, if_pos hw]
            · exact cidEq_false_iff.mpr fun hc => hne hc.symm
          refine ⟨1, ?_⟩
          rw [hre]
          exact hstep
        · obtain ⟨n'', htail'⟩ := ih
          refine ⟨n'' + 1, PChain.step w p n'' r1 ?_ hnp htail'⟩
          rw [pLookup_pInsert, if_neg hw]
          exact hp
  refine ⟨fun e he => pInsert_keys_old he, ?_, ?_, chains, ?_, hroot', hrkey⟩
  · intro e' he'
    rcases mem_pInsert he' with h' | ⟨hk, _⟩
    · exact Or.inl ⟨e', h', rfl⟩
    · exact Or.inr hk
  · refine ⟨pInsert_ndk hinv.ndk, ?_, ?_⟩
    · -- values are keys
      intro e' he'
      rcases mem_pInsert he' with h' | ⟨hk, hv⟩
      · obtain ⟨e2, he2, hk2⟩ := hinv.vk e' h'
        obtain ⟨e3, he3, hk3⟩ := pInsert_keys_old (x := x) (v := r) he2
        exact ⟨e3, he3, hk3.trans hk2⟩
      · obtain ⟨e2, he2, hk2⟩ := hrkey
        exact ⟨e2, he2, by rw [hk2, hv]⟩
    · -- chains terminate
      intro e' he'
      rcases mem_pInsert he' with h' | ⟨hk, _⟩
      · obtain ⟨n1, r1, hch1⟩ := hinv.term e' h'
        obtain ⟨n2, hch2⟩ := chains e'.1 n1 r1 hch1
        exact ⟨n2, r1, hch2⟩
      · obtain ⟨n2, hch2⟩ := chains x nx r hx
        obtain ⟨r3, hch3, _, _⟩ := PChain_congr (show cidKey x = cidKey e'.1 from hk.symm) hch2
        exact ⟨n2, r3, hch3⟩
  · -- the generated equivalence is unchanged
    intro a b
    constructor
    · refine eqvGen_lift ?_ a b
      intro c d hcd
      obtain ⟨e', he', hk1, hk2⟩ := hcd
      rcases mem_pInsert he' with h' | ⟨hk, hv⟩
      · exact Relation.EqvGen.rel _ _ ⟨e', h', hk1, hk2⟩
      · -- the rewritten entry: c = key x, d = key r
        have hc : c = cidKey x := by rw [← hk1, hk]
        have hd : d = cidKey r := by rw [← hk2, hv]
        rw [hc, hd]
        exact PChain_rel hx
    · refine eqvGen_lift ?_ a b
      intro c d hcd
      obtain ⟨e, he, hk1, hk2⟩ := hcd
      by_cases hke : cidKey e.1 = cidKey x
      · -- e is x's stored entry
        have hlx : pLookup m x = some e.2 := by
          rw [← pLookup_congr hke]
          exact pLookup_of_mem_ndk hinv.ndk he
        cases hx with
        | root _ hroot =>
            -- x is a root: the entry is a self loop
            have hself := hroot e.2 hlx
            have hdc : d = c := by
              rw [← hk2, ← hk1]
              exact (cidEq_iff.mp hself).trans hke.symm
            rw [hdc]
            exact Relation.EqvGen.refl c
        | step _ p k r1 hp hnp htail =>
            have hep : e.2 = p := by
              rw [hlx] at hp
              exact Option.some.inj hp
            obtain ⟨w, hw, hkw, hvw⟩ := pInsert_key_new m x r
            have hc : c = cidKey x := hk1 ▸ hke
            have e1 : Relation.EqvGen (edge (pInsert m x r)) (cidKey x) (cidKey r) := by
              refine Relation.EqvGen.rel _ _ ⟨w, hw, hkw, by rw [hvw]⟩
            obtain ⟨n'', hch''⟩ := chains p k r htail
            have e2 : Relation.EqvGen (edge (pInsert m x r)) (cidKey p) (cidKey r) :=
              PChain_rel hch''
            have hd : d = cidKey p := by rw [← hk2, hep]
            rw [hc, hd]
            exact Relation.EqvGen.trans _ _ _ e1 (Relation.EqvGen.symm _ _ e2)
      · exact Relation.EqvGen.rel _ _ ⟨e, mem_pInsert_of_mem he hke, hk1, hk2⟩

theorem findAux_succ_none {fuel : Nat} {m : List (ComponentId × ComponentId)} {x : ComponentId}
    (h : pLookup m x = none) : findAux (fuel + 1) m x = (x, pInsert m x x) := by
  unfold findAux
  rw [h]

theorem findAux_succ_root {fuel : Nat} {m : List (ComponentId × ComponentId)} {x p : ComponentId}
    (h : pLookup m x = some p) (hq : cidEq p x = true) : findAux (fuel + 1) m x = (x, m) := by
  unfold findAux
  rw [h]
  simp [hq]

theorem findAux_succ_step {fuel : Nat} {m : List (ComponentId × ComponentId)} {x p : ComponentId}
    (h : pLookup m x = some p) (hq : cidEq p x = false) :
    findAux (fuel + 1) m x
      = ((findAux fuel m p).1, pInsert (findAux fuel m p).2 x (findAux fuel m p).1) := by
  show (match pLookup m x with
    | none => (x, pInsert m x x)
    | some p =>
        if cidEq p x then (x, m)
        else ((findAux fuel m p).1, pInsert (findAux fuel m p).2 x (findAux fuel m p).1)) = _
  rw [h]
  simp [hq]

/-- Full specification of `findAux` when the fuel exceeds the chain length:
the returned root is the chain's root, the table keeps its keys (plus `x`),
the invariant and every root are preserved, and the generated equivalence is
unchanged. -/
theorem findAux_spec {m : List (ComponentId × ComponentId)} {x : ComponentId} {n : Nat}
    {r : ComponentId} (hinv : UFInv m) (hch : PChain m x n r) :
    ∀ fuel, n < fuel →
    (findAux fuel m x).1 = r
    ∧ (∀ e ∈ m, ∃ e' ∈ (findAux fuel m x).2, cidKey e'.1 = cidKey e.1)
    ∧ (∀ e' ∈ (findAux fuel m x).2,
        (∃ e ∈ m, cidKey e.1 = cidKey e'.1) ∨ cidKey e'.1 = cidKey x)
    ∧ UFInv (findAux fuel m x).2
    ∧ (∀ z n' r', PChain m z n' r' → ∃ n'', PChain (findAux fuel m x).2 z n'' r')
    ∧ (∀ a b, Relation.EqvGen (edge (findAux fuel m x).2) a b
        ↔ Relation.EqvGen (edge m) a b)
    ∧ PChain (findAux fuel m x).2 r 0 r
    ∧ (∃ e ∈ (findAux fuel m x).2, cidKey e.1 = cidKey r)
    ∧ (∃ e ∈ (findAux fuel m x).2, cidKey e.1 = cidKey x) := by
  induction hch generalizing hinv with
  | root w hroot =>
      intro fuel hfuel
      cases fuel with
      | zero => omega
      | succ f =>
          cases hl : pLookup m w with
          | none =>
              rw [findAux_succ_none hl]
              have hrt : PChain m w 0 w := PChain.root w hroot
              obtain ⟨c1, c2, c3, c4, c5, c6, c7⟩ := pInsert_reroute hinv hrt hrt
              refine ⟨rfl, c1, c2, c3, c4, c5, c6, c7, ?_⟩
              obtain ⟨e', he', hk, _⟩ := pInsert_key_new m w w
              exact ⟨e', he', hk⟩
          | some p =>
              have hq : cidEq p w = true := hroot p hl
              rw [findAux_succ_root hl hq]
              obtain ⟨e, he, hk, _⟩ := pLookup_mem hl
              exact ⟨rfl, fun e he => ⟨e, he, rfl⟩, fun e' he' => Or.inl ⟨e', he', rfl⟩,
                hinv, fun z n' r' h => ⟨n', h⟩, fun a b => Iff.rfl,
                PChain.root w hroot, ⟨e, he, hk⟩, ⟨e, he, hk⟩⟩
  | step w p k r1 hp hnp htail ih =>
      intro fuel hfuel
      cases fuel with
      | zero => omega
      | succ f =>
          obtain ⟨i1, i2, i3, i4, i5, i6, i7, i8, i9⟩ := ih hinv f (by omega)
          rw [findAux_succ_step hp hnp, i1]
          have hfull : PChain m w (k + 1) r1 := PChain.step w p k r1 hp hnp htail
          obtain ⟨nw, hxw⟩ := i5 w (k + 1) r1 hfull
          obtain ⟨c1, c2, c3, c4, c5, c6, c7⟩ := pInsert_reroute i4 hxw i7
          refine ⟨rfl, ?_, ?_, c3, ?_, ?_, c6, c7, ?_⟩
          · intro e he
            obtain ⟨e1, he1, hk1⟩ := i2 e he
            obtain ⟨e2, he2, hk2⟩ := c1 e1 he1
            exact ⟨e2, he2, hk2.trans hk1⟩
          · intro e' he'
            rcases c2 e' he' with ⟨e1, he1, hk1⟩ | hk
            · rcases i3 e1 he1 with ⟨e2, he2, hk2⟩ | hk2
              · exact Or.inl ⟨e2, he2, hk2.trans hk1⟩
              · -- e1's key is p's key, and p is a value of m, hence a key of m
                obtain ⟨e0, he0, _, hv0⟩ := pLookup_mem hp
                obtain ⟨e3, he3, hk3⟩ := hinv.vk e0 he0
                refine Or.inl ⟨e3, he3, ?_⟩
                rw [hk3, hv0, ← hk2, hk1]
            · exact Or.inr hk
          · intro z n' r' h
            obtain ⟨n1, h1⟩ := i5 z n' r' h
            exact c4 z n1 r' h1
          · intro a b
            exact (c5 a b).trans (i6 a b)
          · obtain ⟨e', he', hk, _⟩ := pInsert_key_new (findAux f m p).2 w r1
            exact ⟨e', he', hk⟩

theorem ufFind_chain {m : List (ComponentId × ComponentId)} (hinv : UFInv m)
    (x : ComponentId) : ∃ n r, PChain m x n r ∧ n ≤ m.length := by
  cases hl : pLookup m x with
  | none =>
      refine ⟨0, x, PChain.root x ?_, by omega⟩
      intro p hp
      rw [hl] at hp
      exact absurd hp (by simp)
  | some p =>
      cases hq : cidEq p x with
      | true =>
          refine ⟨0, x, PChain.root x ?_, by omega⟩
          intro p' hp'
          rw [hl] at hp'
          rw [← Option.some.inj hp']
          exact hq
      | false =>
          obtain ⟨e, he, hk, hv⟩ := pLookup_mem hl
          obtain ⟨n1, r1, hch1⟩ := hinv.term e he
          obtain ⟨r2, hch2, _, _⟩ := PChain_congr hk hch1
          exact ⟨n1, r2, hch2, PChain_length_le hch2⟩

/-- `UnionFind::find` through its public wrapper: the fuel `m.length + 1`
always suffices. -/
theorem ufFind_spec {m : List (ComponentId × ComponentId)} (hinv : UFInv m)
    (x : ComponentId) :
    ∃ n r, PChain m x n r
    ∧ (ufFind m x).1 = r
    ∧ (∀ e ∈ m, ∃ e' ∈ (ufFind m x).2, cidKey e'.1 = cidKey e.1)
    ∧ (∀ e' ∈ (ufFind m x).2, (∃ e ∈ m, cidKey e.1 = cidKey e'.1) ∨ cidKey e'.1 = cidKey x)
    ∧ UFInv (ufFind m x).2
    ∧ (∀ z n' r', PChain m z n' r' → ∃ n'', PChain (ufFind m x).2 z n'' r')
    ∧ (∀ a b, Relation.EqvGen (edge (ufFind m x).2) a b ↔ Relation.EqvGen (edge m) a b)
    ∧ PChain (ufFind m x).2 r 0 r
    ∧ (∃ e ∈ (ufFind m x).2, cidKey e.1 = cidKey r)
    ∧ (∃ e ∈ (ufFind m x).2, cidKey e.1 = cidKey x) := by
  obtain ⟨n, r, hch, hle⟩ := ufFind_chain hinv x
  obtain ⟨c1, c2, c3, c4, c5, c6, c7, c8, c9⟩ :=
    findAux_spec hinv hch (m.length + 1) (by omega)
  exact ⟨n, r, hch, c1, c2, c3, c4, c5, c6, c7, c8, c9⟩

theorem PChain_self_zero {m : List (ComponentId × ComponentId)} {r : ComponentId} {n : Nat}
    (h : PChain m r n r) : n = 0 := by
  cases n with
  | zero => rfl
  | succ k => exact absurd rfl (PChain_key_ne_root h)

theorem RootKey_total {m : List (ComponentId × ComponentId)} (hinv : UFInv m) (a : Nat × Nat) :
    ∃ k, RootKey m a k := by
  obtain ⟨n, r, hch, _⟩ := ufFind_chain hinv ⟨a.1, a.2, 0⟩
  exact ⟨cidKey r, ⟨a.1, a.2, 0⟩, n, r, rfl, hch, rfl⟩

theorem RootKey_unique {m : List (ComponentId × ComponentId)} {a k1 k2 : Nat × Nat}
    (h1 : RootKey m a k1) (h2 : RootKey m a k2) : k1 = k2 := by
  obtain ⟨z1, n1, r1, hz1, hch1, hr1⟩ := h1
  obtain ⟨z2, n2, r2, hz2, hch2, hr2⟩ := h2
  obtain ⟨r', hch', hk', _⟩ := PChain_congr (hz1.trans hz2.symm) hch1
  obtain ⟨_, hr⟩ := PChain_unique hch' hch2
  rw [← hr1, ← hr2, ← hk', hr]

theorem RootKey_preserve {m m' : List (ComponentId × ComponentId)}
    (hpres : ∀ z n r, PChain m z n r → ∃ n', PChain m' z n' r) {a k : Nat × Nat}
    (h : RootKey m a k) : RootKey m' a k := by
  obtain ⟨z, n, r, hz, hch, hr⟩ := h
  obtain ⟨n', hch'⟩ := hpres z n r hch
  exact ⟨z, n', r, hz, hch', hr⟩

theorem RootKey_back {m m' : List (ComponentId × ComponentId)} (hinv : UFInv m)
    (hpres : ∀ z n r, PChain m z n r → ∃ n', PChain m' z n' r) {a k : Nat × Nat}
    (h : RootKey m' a k) : RootKey m a k := by
  obtain ⟨k0, h0⟩ := RootKey_total hinv a
  have h0' := RootKey_preserve hpres h0
  rw [RootKey_unique h h0']
  exact h0

/-- Under the invariant, two keys are related by the closure of the parent
links exactly when they reach a common root. -/
theorem rel_iff_rootKey {m : List (ComponentId × ComponentId)} (hinv : UFInv m)
    (a b : Nat × Nat) :
    Relation.EqvGen (edge m) a b ↔ ∃ k, RootKey m a k ∧ RootKey m b k := by
  constructor
  · intro h
    induction h with
    | rel u v huv =>
        obtain ⟨e, he, h1, h2⟩ := huv
        have hl : pLookup m e.1 = some e.2 := pLookup_of_mem_ndk hinv.ndk he
        by_cases hself : cidEq e.2 e.1
        · have hko : cidKey e.2 = cidKey e.1 := cidEq_iff.mp hself
          obtain ⟨k, hk⟩ := RootKey_total hinv u
          refine ⟨k, hk, ?_⟩
          rw [← h2, hko, h1]
          exact hk
        · have hself' : cidEq e.2 e.1 = false := by simpa using hself
          obtain ⟨e', he', hk'⟩ := hinv.vk e he
          obtain ⟨n2, r2, hch'⟩ := hinv.term e' he'
          obtain ⟨r3, hch3, hk3, _⟩ := PChain_congr hk' hch'
          exact ⟨cidKey r3,
            ⟨e.1, n2 + 1, r3, h1, PChain.step e.1 e.2 n2 r3 hl hself' hch3, rfl⟩,
            ⟨e.2, n2, r3, h2, hch3, rfl⟩⟩
    | refl u =>
        obtain ⟨k, hk⟩ := RootKey_total hinv u
        exact ⟨k, hk, hk⟩
    | symm u v _ ih =>
        obtain ⟨k, hk1, hk2⟩ := ih
        exact ⟨k, hk2, hk1⟩
    | trans u v w _ _ ih1 ih2 =>
        obtain ⟨k1, ha, hv1⟩ := ih1
        obtain ⟨k2, hv2, hw⟩ := ih2
        rw [RootKey_unique hv1 hv2] at ha
        exact ⟨k2, ha, hw⟩
  · rintro ⟨k, ⟨z1, n1, r1, hz1, hch1, hr1⟩, ⟨z2, n2, r2, hz2, hch2, hr2⟩⟩
    have h1 := PChain_rel hch1
    have h2 := PChain_rel hch2
    rw [hz1, hr1] at h1
    rw [hz2, hr2] at h2
    exact Relation.EqvGen.trans _ k _ h1 (Relation.EqvGen.symm _ _ h2)

/-- Effect of the root-linking write `parent[px] = py` of `unite` on two
distinct roots. -/
theorem pInsert_link {m : List (ComponentId × ComponentId)} {px py : ComponentId}
    (hinv : UFInv m) (hpx : PChain m px 0 px) (hpy : PChain m py 0 py)
    (hne : cidKey px ≠ cidKey py) (hpykey : ∃ e ∈ m, cidKey e.1 = cidKey py) :
    (∀ e ∈ m, ∃ e' ∈ pInsert m px py, cidKey e'.1 = cidKey e.1)
    ∧ (∀ e' ∈ pInsert m px py,
        (∃ e ∈ m, cidKey e.1 = cidKey e'.1) ∨ cidKey e'.1 = cidKey px)
    ∧ UFInv (pInsert m px py)
    ∧ (∀ a b, Relation.EqvGen (edge (pInsert m px py)) a b
        ↔ Relation.EqvGen (addPair (edge m) (cidKey px) (cidKey py)) a b) := by
  have hrootpx : ∀ p, pLookup m px = some p → cidEq p px = true := by
    cases hpx with
    | root _ h => exact h
  have hrootpy : ∀ p, pLookup m py = some p → cidEq p py = true := by
    cases hpy with
    | root _ h => exact h
  have hwnotpx : ∀ (w p : ComponentId), pLookup m w = some p → cidEq p w = false →
      cidKey w ≠ cidKey px := by
    intro w p hp hnp hk
    rw [pLookup_congr hk] at hp
    have := hrootpx p hp
    rw [cidEq_congr hk] at hnp
    simp [this] at hnp
  have hchains : ∀ z k r, PChain m z k r →
      (cidKey r ≠ cidKey px → PChain (pInsert m px py) z k r)
      ∧ (cidKey r = cidKey px → PChain (pInsert m px py) z (k + 1) py) := by
    intro z k r hch
    induction hch with
    | root w hroot =>
        constructor
        · intro hwr
          refine PChain.root w ?_
          intro p hp
          rw [pLookup_pInsert, if_neg hwr] at hp
          exact hroot p hp
        · intro hwr
          have hlw : pLookup (pInsert m px py) w = some py := by
            rw [pLookup_pInsert, if_pos hwr]
          have hpyroot : PChain (pInsert m px py) py 0 py := by
            refine PChain.root py ?_
            intro p hp
            rw [pLookup_pInsert, if_neg (fun hc => hne hc.symm)] at hp
            exact hrootpy p hp
          refine PChain.step w py 0 py hlw ?_ hpyroot
          exact cidEq_false_iff.mpr (fun hc => hne (hc.trans hwr).symm)
    | step w p k r hp hnp htail ih =>
        have hwx : cidKey w ≠ cidKey px := hwnotpx w p hp hnp
        have hlw : pLookup (pInsert m px py) w = some p := by
          rw [pLookup_pInsert, if_neg hwx]
          exact hp
        constructor
        · intro hr
          exact PChain.step w p k r hlw hnp ((ih).1 hr)
        · intro hr
          exact PChain.step w p (k + 1) py hlw hnp ((ih).2 hr)
  refine ⟨fun e he => pInsert_keys_old he, ?_, ?_, ?_⟩
  · intro e' he'
    rcases mem_pInsert he' with h | ⟨hk, _⟩
    · exact Or.inl ⟨e', h, rfl⟩
    · exact Or.inr hk
  · refine ⟨pInsert_ndk hinv.ndk, ?_, ?_⟩
    · intro e' he'
      rcases mem_pInsert he' with h | ⟨hk, hv⟩
      · obtain ⟨e'', he'', hk''⟩ := hinv.vk e' h
        obtain ⟨e3, he3, hk3⟩ := pInsert_keys_old (x := px) (v := py) he''
        exact ⟨e3, he3, hk3.trans hk''⟩
      · obtain ⟨e0, he0, hk0⟩ := hpykey
        obtain ⟨e3, he3, hk3⟩ := pInsert_keys_old (x := px) (v := py) he0
        exact ⟨e3, he3, by rw [hk3, hk0, hv]⟩
    · intro e' he'
      rcases mem_pInsert he' with h | ⟨hk, _⟩
      · obtain ⟨n, r, hch⟩ := hinv.term e' h
        by_cases hr : cidKey r = cidKey px
        · exact ⟨n + 1, py, (hchains e'.1 n r hch).2 hr⟩
        · exact ⟨n, r, (hchains e'.1 n r hch).1 hr⟩
      · have h1 : PChain (pInsert m px py) px 1 py :=
          (hchains px 0 px hpx).2 rfl
        obtain ⟨r', hch', _, _⟩ := PChain_congr (show cidKey px = cidKey e'.1 from hk.symm) h1
        exact ⟨1, r', hch'⟩
  · intro a b
    constructor
    · refine eqvGen_lift ?_ a b
      intro c d hcd
      obtain ⟨e', he', h1, h2⟩ := hcd
      rcases mem_pInsert he' with h | ⟨hk, hv⟩
      · exact Relation.EqvGen.rel _ _ (Or.inl ⟨e', h, h1, h2⟩)
      · exact Relation.EqvGen.rel _ _ (Or.inr ⟨by rw [← h1, hk], by rw [← h2, hv]⟩)
    · refine eqvGen_lift ?_ a b
      intro c d hcd
      rcases hcd with ⟨e, he, h1, h2⟩ | ⟨rfl, rfl⟩
      · by_cases hex : cidKey e.1 = cidKey px
        · have hl : pLookup m e.1 = some e.2 := pLookup_of_mem_ndk hinv.ndk he
          rw [pLookup_congr hex] at hl
          have heq := cidEq_iff.mp (hrootpx e.2 hl)
          rw [← h1, ← h2, heq, hex]
          exact Relation.EqvGen.refl _
        · exact Relation.EqvGen.rel _ _ ⟨e, mem_pInsert_of_mem he hex, h1, h2⟩
      · obtain ⟨e', he', hk, hv⟩ := pInsert_key_new m px py
        exact Relation.EqvGen.rel _ _ ⟨e', he', hk, by rw [hv]⟩

/-- `UnionFind::unite` preserves the invariant, adds exactly the two argument
keys, and extends the generated equivalence by exactly the pair of their
keys. -/
theorem ufUnite_spec {m : List (ComponentId × ComponentId)} (hinv : UFInv m)
    (x y : ComponentId) :
    UFInv (ufUnite m x y)
    ∧ (∀ e ∈ m, ∃ e' ∈ ufUnite m x y, cidKey e'.1 = cidKey e.1)
    ∧ (∃ e' ∈ ufUnite m x y, cidKey e'.1 = cidKey x)
    ∧ (∃ e' ∈ ufUnite m x y, cidKey e'.1 = cidKey y)
    ∧ (∀ e' ∈ ufUnite m x y,
        (∃ e ∈ m, cidKey e.1 = cidKey e'.1) ∨ cidKey e'.1 = cidKey x
          ∨ cidKey e'.1 = cidKey y)
    ∧ (∀ a b, Relation.EqvGen (edge (ufUnite m x y)) a b
        ↔ Relation.EqvGen (addPair (edge m) (cidKey x) (cidKey y)) a b) := by
  obtain ⟨n1, r1, hch1, hfx1, F2, F3, F4, F5, F6, F7, F8, F9⟩ := ufFind_spec hinv x
  obtain ⟨n2, r2, hch2, hfy1, G2, G3, G4, G5, G6, G7, G8, G9⟩ := ufFind_spec F4 y
  have hdef : ufUnite m x y
      = if cidEq (ufFind m x).1 (ufFind (ufFind m x).2 y).1
          then (ufFind (ufFind m x).2 y).2
          else pInsert (ufFind (ufFind m x).2 y).2 (ufFind m x).1
            (ufFind (ufFind m x).2 y).1 := rfl
  rw [hdef, hfx1, hfy1]
  have relx : Relation.EqvGen (edge m) (cidKey x) (cidKey r1) := PChain_rel hch1
  have rely : Relation.EqvGen (edge m) (cidKey y) (cidKey r2) :=
    (F6 _ _).mp (PChain_rel hch2)
  have hEy : ∀ a b, Relation.EqvGen (edge (ufFind (ufFind m x).2 y).2) a b
      ↔ Relation.EqvGen (edge m) a b := fun a b => (G6 a b).trans (F6 a b)
  have hkeyold : ∀ e ∈ m, ∃ e' ∈ (ufFind (ufFind m x).2 y).2, cidKey e'.1 = cidKey e.1 := by
    intro e he
    obtain ⟨e1, he1, hk1⟩ := F2 e he
    obtain ⟨e2, he2, hk2⟩ := G2 e1 he1
    exact ⟨e2, he2, hk2.trans hk1⟩
  have hkeyx : ∃ e' ∈ (ufFind (ufFind m x).2 y).2, cidKey e'.1 = cidKey x := by
    obtain ⟨e1, he1, hk1⟩ := F9
    obtain ⟨e2, he2, hk2⟩ := G2 e1 he1
    exact ⟨e2, he2, hk2.trans hk1⟩
  have hkeyr1 : ∃ e' ∈ (ufFind (ufFind m x).2 y).2, cidKey e'.1 = cidKey r1 := by
    obtain ⟨e1, he1, hk1⟩ := F8
    obtain ⟨e2, he2, hk2⟩ := G2 e1 he1
    exact ⟨e2, he2, hk2.trans hk1⟩
  have hsub : ∀ e' ∈ (ufFind (ufFind m x).2 y).2,
      (∃ e ∈ m, cidKey e.1 = cidKey e'.1) ∨ cidKey e'.1 = cidKey x
        ∨ cidKey e'.1 = cidKey y := by
    intro e' he'
    rcases G3 e' he' with ⟨e1, he1, hk1⟩ | hk1
    · rcases F3 e1 he1 with ⟨e0, he0, hk0⟩ | hk0
      · exact Or.inl ⟨e0, he0, hk0.trans hk1⟩
      · exact Or.inr (Or.inl (by rw [← hk1, hk0]))
    · exact Or.inr (Or.inr hk1)
  have hr1root : PChain (ufFind (ufFind m x).2 y).2 r1 0 r1 := by
    obtain ⟨n', hch'⟩ := G5 r1 0 r1 F7
    have h0 := PChain_self_zero hch'
    subst h0
    exact hch'
  by_cases hrr : cidEq r1 r2
  · rw [if_pos hrr]
    have hk12 : cidKey r1 = cidKey r2 := cidEq_iff.mp hrr
    have hrelxy : Relation.EqvGen (edge m) (cidKey x) (cidKey y) := by
      refine Relation.EqvGen.trans _ (cidKey r1) _ relx ?_
      rw [hk12]
      exact Relation.EqvGen.symm _ _ rely
    refine ⟨G4, hkeyold, hkeyx, G9, hsub, ?_⟩
    intro a b
    exact (hEy a b).trans ((eqvGen_addPair_of_rel hrelxy a b).symm)
  · rw [if_neg hrr]
    have hne12 : cidKey r1 ≠ cidKey r2 := cidEq_false_iff.mp (by simpa using hrr)
    have hr2root : PChain (ufFind (ufFind m x).2 y).2 r2 0 r2 := G7
    have hr2key : ∃ e ∈ (ufFind (ufFind m x).2 y).2, cidKey e.1 = cidKey r2 := G8
    obtain ⟨L1, L2, L3, L4⟩ := pInsert_link G4 hr1root hr2root hne12 hr2key
    refine ⟨L3, ?_, ?_, ?_, ?_, ?_⟩
    · intro e he
      obtain ⟨e1, he1, hk1⟩ := hkeyold e he
      obtain ⟨e2, he2, hk2⟩ := L1 e1 he1
      exact ⟨e2, he2, hk2.trans hk1⟩
    · obtain ⟨e1, he1, hk1⟩ := hkeyx
      obtain ⟨e2, he2, hk2⟩ := L1 e1 he1
      exact ⟨e2, he2, hk2.trans hk1⟩
    · obtain ⟨e1, he1, hk1⟩ := G9
      obtain ⟨e2, he2, hk2⟩ := L1 e1 he1
      exact ⟨e2, he2, hk2.trans hk1⟩
    · intro e' he'
      rcases L2 e' he' with ⟨e1, he1, hk1⟩ | hk1
      · rcases hsub e1 he1 with ⟨e0, he0, hk0⟩ | hk0 | hk0
        · exact Or.inl ⟨e0, he0, hk0.trans hk1⟩
        · exact Or.inr (Or.inl (by rw [← hk1]; exact hk0))
        · exact Or.inr (Or.inr (by rw [← hk1]; exact hk0))
      · obtain ⟨e1, he1, hk1'⟩ := hkeyr1
        rcases hsub e1 he1 with ⟨e0, he0, hk0⟩ | hk0
        · exact Or.inl ⟨e0, he0, by rw [hk0, hk1', hk1]⟩
        · rcases hk0 with hk0 | hk0
          · exact Or.inr (Or.inl (by rw [hk1, ← hk1', hk0]))
          · exact Or.inr (Or.inr (by rw [hk1, ← hk1', hk0]))
    · intro a b
      refine (L4 a b).trans ?_
      refine (eqvGen_addPair_congr hEy a b).trans ?_
      exact eqvGen_addPair_move (Relation.EqvGen.symm _ _ relx)
        (Relation.EqvGen.symm _ _ rely) a b

theorem eqvGen_union_congr {R S T : (Nat × Nat) → (Nat × Nat) → Prop}
    (h : ∀ a b, Relation.EqvGen R a b ↔ Relation.EqvGen S a b) :
    ∀ a b, Relation.EqvGen (edgeUnion R T) a b ↔ Relation.EqvGen (edgeUnion S T) a b := by
  intro a b
  constructor
  · refine eqvGen_lift ?_ a b
    intro c d hcd
    rcases hcd with hcd | hcd
    · exact eqvGen_lift (fun e f hef => Relation.EqvGen.rel e f (Or.inl hef)) c d
        ((h c d).mp (Relation.EqvGen.rel _ _ hcd))
    · exact Relation.EqvGen.rel _ _ (Or.inr hcd)
  · refine eqvGen_lift ?_ a b
    intro c d hcd
    rcases hcd with hcd | hcd
    · exact eqvGen_lift (fun e f hef => Relation.EqvGen.rel e f (Or.inl hef)) c d
        ((h c d).mpr (Relation.EqvGen.rel _ _ hcd))
    · exact Relation.EqvGen.rel _ _ (Or.inr hcd)

/-- The fold of `buildComponentChains` over the match list, relative to an
arbitrary starting table. -/
theorem ufFold_spec (ml : List Match) :
    ∀ m0 : List (ComponentId × ComponentId), UFInv m0 →
    UFInv (ml.foldl
      (fun m mt =>
        ufUnite m ⟨mt.query_doc, mt.query_comp, mt.cost⟩
          ⟨mt.target_doc, mt.target_comp, mt.cost⟩) m0)
    ∧ (∀ e0 ∈ m0, ∃ e ∈ ml.foldl
        (fun m mt =>
          ufUnite m ⟨mt.query_doc, mt.query_comp, mt.cost⟩
            ⟨mt.target_doc, mt.target_comp, mt.cost⟩) m0, cidKey e.1 = cidKey e0.1)
    ∧ (∀ p, touched ml p → ∃ e ∈ ml.foldl
        (fun m mt =>
          ufUnite m ⟨mt.query_doc, mt.query_comp, mt.cost⟩
            ⟨mt.target_doc, mt.target_comp, mt.cost⟩) m0, cidKey e.1 = p)
    ∧ (∀ e ∈ ml.foldl
        (fun m mt =>
          ufUnite m ⟨mt.query_doc, mt.query_comp, mt.cost⟩
            ⟨mt.target_doc, mt.target_comp, mt.cost⟩) m0,
        (∃ e0 ∈ m0, cidKey e0.1 = cidKey e.1) ∨ touched ml (cidKey e.1))
    ∧ (∀ a b, Relation.EqvGen (edge (ml.foldl
        (fun m mt =>
          ufUnite m ⟨mt.query_doc, mt.query_comp, mt.cost⟩
            ⟨mt.target_doc, mt.target_comp, mt.cost⟩) m0)) a b
        ↔ Relation.EqvGen (edgeUnion (edge m0) (matchEdge ml)) a b) := by
  induction ml with
  | nil =>
      intro m0 hinv0
      refine ⟨hinv0, fun e0 he0 => ⟨e0, he0, rfl⟩, ?_, ?_, ?_⟩
      · intro p hp
        obtain ⟨mt, hmt, _⟩ := hp
        exact absurd hmt (List.not_mem_nil mt)
      · intro e he
        exact Or.inl ⟨e, he, rfl⟩
      · intro a b
        refine eqvGen_congr ?_ a b
        intro c d
        constructor
        · exact fun h => Or.inl h
        · rintro (h | ⟨mt, hmt, _⟩)
          · exact h
          · exact absurd hmt (List.not_mem_nil mt)
  | cons mt rest ih =>
      intro m0 hinv0
      obtain ⟨U1, U2, U3, U4, U5, U6⟩ := ufUnite_spec hinv0
        ⟨mt.query_doc, mt.query_comp, mt.cost⟩ ⟨mt.target_doc, mt.target_comp, mt.cost⟩
      obtain ⟨I1, I2, I3, I4, I5⟩ := ih _ U1
      rw [List.foldl_cons]
      refine ⟨I1, ?_, ?_, ?_, ?_⟩
      · intro e0 he0
        obtain ⟨e1, he1, hk1⟩ := U2 e0 he0
        obtain ⟨e2, he2, hk2⟩ := I2 e1 he1
        exact ⟨e2, he2, hk2.trans hk1⟩
      · intro p hp
        obtain ⟨mt', hmt', hor⟩ := hp
        rcases List.mem_cons.mp hmt' with rfl | hmt''
        · rcases hor with rfl | rfl
          · obtain ⟨e1, he1, hk1⟩ := U3
            obtain ⟨e2, he2, hk2⟩ := I2 e1 he1
            exact ⟨e2, he2, hk2.trans hk1⟩
          · obtain ⟨e1, he1, hk1⟩ := U4
            obtain ⟨e2, he2, hk2⟩ := I2 e1 he1
            exact ⟨e2, he2, hk2.trans hk1⟩
        · exact I3 p ⟨mt', hmt'', hor⟩
      · intro e he
        rcases I4 e he with ⟨e1, he1, hk1⟩ | ht
        · rcases U5 e1 he1 with ⟨e0, he0, hk0⟩ | hk | hk
          · exact Or.inl ⟨e0, he0, hk0.trans hk1⟩
          · exact Or.inr ⟨mt, List.mem_cons_self _ _, Or.inl (by rw [← hk1, hk]; rfl)⟩
          · exact Or.inr ⟨mt, List.mem_cons_self _ _, Or.inr (by rw [← hk1, hk]; rfl)⟩
        · obtain ⟨mt', hmt', hor⟩ := ht
          exact Or.inr ⟨mt', List.mem_cons_of_mem _ hmt', hor⟩
      · intro a b
        refine (I5 a b).trans ?_
        refine (eqvGen_union_congr U6 a b).trans ?_
        refine eqvGen_congr ?_ a b
        intro c d
        constructor
        · rintro ((h | ⟨rfl, rfl⟩) | ⟨mt', hmem, rfl, rfl⟩)
          · exact Or.inl h
          · exact Or.inr ⟨mt, List.mem_cons_self _ _, rfl, rfl⟩
          · exact Or.inr ⟨mt', List.mem_cons_of_mem _ hmem, rfl, rfl⟩
        · rintro (h | ⟨mt', hmem, rfl, rfl⟩)
          · exact Or.inl (Or.inl h)
          · rcases List.mem_cons.mp hmem with rfl | hmem'
            · exact Or.inl (Or.inr ⟨rfl, rfl⟩)
            · exact Or.inr ⟨mt', hmem', rfl, rfl⟩

/-- The table built from a match list: invariant holds, keys are exactly the
touched pairs, and parent links generate exactly the match equivalence. -/
theorem ufFromMatches_spec (ml : List Match) :
    UFInv (ufFromMatches ml)
    ∧ (∀ p, touched ml p ↔ ∃ e ∈ ufFromMatches ml, cidKey e.1 = p)
    ∧ (∀ a b, Relation.EqvGen (edge (ufFromMatches ml)) a b
        ↔ Relation.EqvGen (matchEdge ml) a b) := by
  have hinv0 : UFInv ([] : List (ComponentId × ComponentId)) :=
    ⟨List.Pairwise.nil, by simp, by simp⟩
  obtain ⟨I1, I2, I3, I4, I5⟩ := ufFold_spec ml [] hinv0
  refine ⟨I1, ?_, ?_⟩
  · intro p
    constructor
    · exact I3 p
    · rintro ⟨e, he, rfl⟩
      rcases I4 e he with ⟨e0, he0, _⟩ | ht
      · exact absurd he0 (List.not_mem_nil e0)
      · exact ht
  · intro a b
    refine (I5 a b).trans ?_
    refine eqvGen_congr ?_ a b
    intro c d
    constructor
    · rintro (⟨e, he, _⟩ | h)
      · exact absurd he (List.not_mem_nil e)
      · exact h
    · exact fun h => Or.inr h

theorem mem_gInsert {acc : List (ComponentId × List ComponentId)} {r c : ComponentId}
    {b : ComponentId × List ComponentId} (hb : b ∈ gInsert acc r c) :
    b ∈ acc
    ∨ (∃ b0 ∈ acc, b.1 = b0.1 ∧ b.2 = b0.2 ++ [c] ∧ cidKey b0.1 = cidKey r)
    ∨ b = (r, [c]) := by
  induction acc with
  | nil =>
      have hb' : b = (r, [c]) := by simpa [gInsert] using hb
      exact Or.inr (Or.inr hb')
  | cons b0 rest ih =>
      unfold gInsert at hb
      split_ifs at hb with h0
      · rcases List.mem_cons.mp hb with rfl | h'
        · exact Or.inr (Or.inl ⟨b0, List.mem_cons_self _ _, rfl, rfl, cidEq_iff.mp h0⟩)
        · exact Or.inl (List.mem_cons_of_mem _ h')
      · rcases List.mem_cons.mp hb with rfl | h'
        · exact Or.inl (List.mem_cons_self _ _)
        · rcases ih h' with h | h | h
          · exact Or.inl (List.mem_cons_of_mem _ h)
          · obtain ⟨b1, hb1, he⟩ := h
            exact Or.inr (Or.inl ⟨b1, List.mem_cons_of_mem _ hb1, he⟩)
          · exact Or.inr (Or.inr h)

theorem gInsert_keys (acc : List (ComponentId × List ComponentId)) (r c : ComponentId) :
    ((gInsert acc r c).map fun b => cidKey b.1) = (acc.map fun b => cidKey b.1)
    ∨ (((gInsert acc r c).map fun b => cidKey b.1)
          = (acc.map fun b => cidKey b.1) ++ [cidKey r]
        ∧ ∀ b ∈ acc, cidKey b.1 ≠ cidKey r) := by
  induction acc with
  | nil => exact Or.inr ⟨rfl, by simp⟩
  | cons b0 rest ih =>
      unfold gInsert
      split_ifs with h0
      · exact Or.inl rfl
      · rcases ih with h | ⟨h, hall⟩
        · left
          simp only [List.map_cons, h]
        · right
          constructor
          · simp only [List.map_cons, h, List.cons_append]
          · intro b hb
            rcases List.mem_cons.mp hb with rfl | hb'
            · exact cidEq_false_iff.mp (by simpa using h0)
            · exact hall b hb'

theorem gInsert_flatMap (acc : List (ComponentId × List ComponentId)) (r c : ComponentId) :
    ((gInsert acc r c).flatMap (·.2)).Perm (acc.flatMap (·.2) ++ [c]) := by
  induction acc with
  | nil => simp [gInsert]
  | cons b0 rest ih =>
      unfold gInsert
      split_ifs with h0
      · simp only [List.flatMap_cons]
        rw [List.append_assoc, List.append_assoc]
        exact List.Perm.append_left _ List.perm_append_comm
      · simp only [List.flatMap_cons]
        rw [List.append_assoc]
        exact List.Perm.append_left _ ih

theorem gInsert_nonempty {acc : List (ComponentId × List ComponentId)}
    (hne : ∀ b ∈ acc, b.2 ≠ []) (r c : ComponentId) :
    ∀ b ∈ gInsert acc r c, b.2 ≠ [] := by
  intro b hb
  rcases mem_gInsert hb with h | ⟨b0, _, _, h2, _⟩ | heq
  · exact hne b h
  · rw [h2]
    simp
  · rw [heq]
    simp

/-- The visiting loop of `getConnectedComponents`: buckets collect exactly the
visited ids, bucketed by root key, under distinct bucket keys. -/
theorem ufGroupsAux_spec (todo : List ComponentId) :
    ∀ (m : List (ComponentId × ComponentId)) (acc : List (ComponentId × List ComponentId)),
    UFInv m →
    (∀ b ∈ acc, ∀ c ∈ b.2, RootKey m (cidKey c) (cidKey b.1)) →
    ((acc.map fun b => cidKey b.1).Nodup) →
    (∀ b ∈ acc, b.2 ≠ []) →
    (∀ b ∈ ufGroupsAux todo m acc, ∀ c ∈ b.2, RootKey m (cidKey c) (cidKey b.1))
    ∧ (((ufGroupsAux todo m acc).map fun b => cidKey b.1).Nodup)
    ∧ (∀ b ∈ ufGroupsAux todo m acc, b.2 ≠ [])
    ∧ ((ufGroupsAux todo m acc).flatMap (·.2)).Perm (acc.flatMap (·.2) ++ todo) := by
  induction todo with
  | nil =>
      intro m acc hinv hroots hnodup hne
      refine ⟨hroots, hnodup, hne, ?_⟩
      rw [List.append_nil]
      exact List.Perm.refl _
  | cons c rest ih =>
      intro m acc hinv hroots hnodup hne
      have hstep : ufGroupsAux (c :: rest) m acc
          = ufGroupsAux rest (ufFind m c).2 (gInsert acc (ufFind m c).1 c) := rfl
      rw [hstep]
      obtain ⟨n, r, hch, hf1, F2, F3, F4, F5, F6, F7, F8, F9⟩ := ufFind_spec hinv c
      have hrootc : RootKey (ufFind m c).2 (cidKey c) (cidKey (ufFind m c).1) := by
        obtain ⟨n', hch'⟩ := F5 c n r hch
        rw [hf1]
        exact ⟨c, n', r, rfl, hch', rfl⟩
      have hroots' : ∀ b ∈ gInsert acc (ufFind m c).1 c, ∀ x ∈ b.2,
          RootKey (ufFind m c).2 (cidKey x) (cidKey b.1) := by
        intro b hb x hx
        rcases mem_gInsert hb with h | ⟨b0, hb0, h1, h2, h3⟩ | heq
        · exact RootKey_preserve F5 (hroots b h x hx)
        · rw [h2] at hx
          rcases List.mem_append.mp hx with hx' | hx'
          · rw [h1]
            exact RootKey_preserve F5 (hroots b0 hb0 x hx')
          · have hxc : x = c := by simpa using hx'
            subst hxc
            rw [h1, h3]
            exact hrootc
        · rw [heq] at hx ⊢
          have hxc : x = c := by simpa using hx
          subst hxc
          exact hrootc
      have hnodup' : ((gInsert acc (ufFind m c).1 c).map fun b => cidKey b.1).Nodup := by
        rcases gInsert_keys acc (ufFind m c).1 c with h | ⟨h, hall⟩
        · rw [h]
          exact hnodup
        · rw [h, List.nodup_append]
          refine ⟨hnodup, by simp, ?_⟩
          intro a ha hb
          obtain rfl : a = cidKey (ufFind m c).1 := by simpa using hb
          obtain ⟨b, hbacc, hbk⟩ := List.mem_map.mp ha
          exact hall b hbacc hbk
      have hne' := gInsert_nonempty hne (ufFind m c).1 c
      obtain ⟨r1, r2, r3, r4⟩ := ih (ufFind m c).2 (gInsert acc (ufFind m c).1 c)
        F4 hroots' hnodup' hne'
      refine ⟨?_, r2, r3, ?_⟩
      · intro b hb x hx
        exact RootKey_back hinv F5 (r1 b hb x hx)
      · refine r4.trans ?_
        have h1 := gInsert_flatMap acc (ufFind m c).1 c
        refine (h1.append_right rest).trans ?_
        rw [List.append_assoc]
        exact List.Perm.refl _

theorem flatMap_id_map {α β : Type} (l : List α) (f : α → List β) :
    (l.map f).flatMap id = l.flatMap f := by
  induction l with
  | nil => rfl
  | cons a t ih => simp [ih]

/-- **C3.** `buildComponentChains` partitions exactly the `(doc_id, comp_id)`
pairs touched by at least one match: every group is nonempty, a pair is
touched iff some group contains it, no pair appears twice across the groups,
and two `ComponentId`s lie in the same group iff their keys are related by the
reflexive–symmetric–transitive closure of the match relation. -/
theorem buildComponentChains_partition_closure (match_list : List Match) :
    (∀ g ∈ buildComponentChains match_list, g ≠ [])
    ∧ (∀ p : Nat × Nat, touched match_list p
        ↔ ∃ g ∈ buildComponentChains match_list, ∃ c ∈ g, cidKey c = p)
    ∧ (((buildComponentChains match_list).flatMap id).map cidKey).Nodup
    ∧ (∀ g1 ∈ buildComponentChains match_list, ∀ g2 ∈ buildComponentChains match_list,
        ∀ c1 ∈ g1, ∀ c2 ∈ g2,
        (Relation.EqvGen (matchEdge match_list) (cidKey c1) (cidKey c2) ↔ g1 = g2)) := by
  obtain ⟨hinv, htouch, hrel⟩ := ufFromMatches_spec match_list
  have hbc : buildComponentChains match_list
      = (ufGroupsAux ((ufFromMatches match_list).map (·.1))
          (ufFromMatches match_list) []).map (·.2) := rfl
  obtain ⟨G1, G2, G3, G4⟩ := ufGroupsAux_spec ((ufFromMatches match_list).map (·.1))
    (ufFromMatches match_list) [] hinv
    (fun b hb => absurd hb (List.not_mem_nil b))
    List.nodup_nil
    (fun b hb => absurd hb (List.not_mem_nil b))
  have G4' : ((ufGroupsAux ((ufFromMatches match_list).map (·.1))
      (ufFromMatches match_list) []).flatMap (·.2)).Perm
      ((ufFromMatches match_list).map (·.1)) := G4
  rw [hbc]
  refine ⟨?_, ?_, ?_, ?_⟩
  · intro g hg
    obtain ⟨b, hb, rfl⟩ := List.mem_map.mp hg
    exact G3 b hb
  · intro p
    rw [htouch p]
    constructor
    · rintro ⟨e, he, hk⟩
      have hm1 : e.1 ∈ (ufFromMatches match_list).map (·.1) :=
        List.mem_map.mpr ⟨e, he, rfl⟩
      have hm2 := (G4'.mem_iff).mpr hm1
      obtain ⟨b, hb, hcb⟩ := List.mem_flatMap.mp hm2
      exact ⟨b.2, List.mem_map.mpr ⟨b, hb, rfl⟩, e.1, hcb, hk⟩
    · rintro ⟨g, hg, c, hc, hk⟩
      obtain ⟨b, hb, rfl⟩ := List.mem_map.mp hg
      have hm2 : c ∈ (ufFromMatches match_list).map (·.1) :=
        (G4'.mem_iff).mp (List.mem_flatMap.mpr ⟨b, hb, hc⟩)
      obtain ⟨e, he, he1⟩ := List.mem_map.mp hm2
      exact ⟨e, he, by rw [he1, hk]⟩
  · have hnd : ((ufFromMatches match_list).map fun e => cidKey e.1).Nodup :=
      List.Pairwise.map (fun e : ComponentId × ComponentId => cidKey e.1)
        (fun a b hab => hab) hinv.ndk
    have hflat : ((ufGroupsAux ((ufFromMatches match_list).map (·.1))
        (ufFromMatches match_list) []).map (·.2)).flatMap id
        = (ufGroupsAux ((ufFromMatches match_list).map (·.1))
            (ufFromMatches match_list) []).flatMap (·.2) :=
      flatMap_id_map _ _
    rw [hflat]
    refine ((G4'.map cidKey).symm).nodup ?_
    rw [List.map_map]
    exact hnd
  · intro g1 hg1 g2 hg2 c1 hc1 c2 hc2
    obtain ⟨b1, hb1, rfl⟩ := List.mem_map.mp hg1
    obtain ⟨b2, hb2, rfl⟩ := List.mem_map.mp hg2
    have hr1 : RootKey (ufFromMatches match_list) (cidKey c1) (cidKey b1.1) :=
      G1 b1 hb1 c1 hc1
    have hr2 : RootKey (ufFromMatches match_list) (cidKey c2) (cidKey b2.1) :=
      G1 b2 hb2 c2 hc2
    constructor
    · intro h
      have h' := (hrel (cidKey c1) (cidKey c2)).mpr h
      obtain ⟨k, hk1, hk2⟩ := (rel_iff_rootKey hinv _ _).mp h'
      have e1 : cidKey b1.1 = k := RootKey_unique hr1 hk1
      have e2 : cidKey b2.1 = k := RootKey_unique hr2 hk2
      have hbb : b1 = b2 := List.inj_on_of_nodup_map G2 hb1 hb2 (e1.trans e2.symm)
      rw [hbb]
    · intro h
      have hc2' : c2 ∈ b1.2 := by
        rw [h]
        exact hc2
      have hr2' : RootKey (ufFromMatches match_list) (cidKey c2) (cidKey b1.1) :=
        G1 b1 hb1 c2 hc2'
      exact (hrel _ _).mp ((rel_iff_rootKey hinv _ _).mpr ⟨cidKey b1.1, hr1, hr2'⟩)

theorem buildComponentChains_partition_closure_witness :
    Relation.EqvGen (matchEdge [⟨0, 1, 0, 0, (5 : ℚ)⟩, ⟨1, 2, 0, 0, (7 : ℚ)⟩]) (0, 0) (2, 0) := by
  have hg : [(⟨0, 0, (5 : ℚ)⟩ : ComponentId), ⟨1, 0, 5⟩, ⟨2, 0, 7⟩]
      ∈ buildComponentChains [⟨0, 1, 0, 0, (5 : ℚ)⟩, ⟨1, 2, 0, 0, (7 : ℚ)⟩] := by
    rw [show buildComponentChains [⟨0, 1, 0, 0, (5 : ℚ)⟩, ⟨1, 2, 0, 0, (7 : ℚ)⟩]
        = [[⟨0, 0, 5⟩, ⟨1, 0, 5⟩, ⟨2, 0, 7⟩]] from rfl]
    exact List.mem_cons_self _ _
  exact ((buildComponentChains_partition_closure
      [⟨0, 1, 0, 0, (5 : ℚ)⟩, ⟨1, 2, 0, 0, (7 : ℚ)⟩]).2.2.2
      _ hg _ hg ⟨0, 0, 5⟩ (List.mem_cons_self _ _) ⟨2, 0, 7⟩
      (List.mem_cons_of_mem _ (List.mem_cons_of_mem _ (List.mem_cons_self _ _)))).mpr rfl

end BFCBOM
